import Mathlib

/-!
Textbook RSA over GMP integers: embedding and verification.

The C sources (`numtheory.c`, `rsa.c`) compute over `mpz_t`, the GMP
arbitrary-precision signed integer. An `mpz_t` value is modelled by `Int`.

GMP primitives used by the embedded functions and their counterparts:

* `mpz_mod r n d`     : `n % d` (`Int.emod`, remainder is never negative);
* `mpz_fdiv_q q n d`  : `Int.fdiv n d` (quotient rounded towards minus infinity);
* `mpz_fdiv_q_ui`     : `Int.fdiv n d` with a machine-word divisor;
* `mpz_odd_p`, `mpz_even_p` : `x % 2 = 1`, `x % 2 = 0`;
* `mpz_cmp`, `mpz_cmp_ui`   : the order on `Int`.

Output parameters of the C functions become return values. Every `while` loop
is a recursive function on the loop state; a loop that terminates from every
state is defined by well-founded recursion on its variant, and the one loop
that does not (the halving loop of `is_prime`) takes a fuel argument and
returns `none` when the fuel runs out.
-/

namespace Rsa

set_option linter.unusedVariables false

/-! ## numtheory.c -/

/-- Loop of `gcd`: `while (bb != 0) { t = bb; bb = aa mod bb; aa = t; }`,
returning the final `aa`. -/
def gcd_loop (aa bb : Int) : Int :=
  if h : bb ≠ 0 then gcd_loop bb (aa % bb) else aa
termination_by bb.natAbs
decreasing_by
  have h1 : 0 ≤ aa % bb := Int.emod_nonneg aa h
  have h2 : aa % bb < |bb| := Int.emod_lt aa h
  rw [← Int.natCast_natAbs] at h2
  omega

/-- Function `gcd(d, a, b)` of numtheory.c; the result is the value stored in `d`. -/
def gcd (a b : Int) : Int := gcd_loop a b

/-- Loop of `mod_inverse` on the state `(r, r_not, t, t_not)`:
`q = r // r_not; (r, r_not) = (r_not, r - q * r_not); (t, t_not) = (t_not, t - q * t_not)`
while `r_not != 0`. Returns the final `(r, t)`. -/
def mod_inverse_loop (r r_not t t_not : Int) : Int × Int :=
  if h : r_not ≠ 0 then
    mod_inverse_loop r_not (r - Int.fdiv r r_not * r_not) t_not (t - Int.fdiv r r_not * t_not)
  else (r, t)
termination_by r_not.natAbs
decreasing_by
  have e : r - Int.fdiv r r_not * r_not = Int.fmod r r_not := by
    rw [Int.fmod_def, Int.mul_comm]
  rw [e]
  rcases lt_or_gt_of_ne h with hneg | hpos
  · obtain ⟨k, rfl⟩ := Int.eq_negSucc_of_lt_zero hneg
    rcases r with (_ | m) | m
    · simp [Int.fmod]
    · have hm : m % (k + 1) < k + 1 := Nat.mod_lt _ (Nat.succ_pos k)
      simp only [Int.fmod, Int.subNatNat_eq_coe, Nat.succ_eq_add_one, Int.negSucc_eq]
      omega
    · have hm : (m + 1) % (k + 1) < k + 1 := Nat.mod_lt _ (Nat.succ_pos k)
      simp only [Int.fmod, Nat.succ_eq_add_one, Int.negSucc_eq, Int.ofNat_eq_coe]
      omega
  · have h2 := Int.fmod_nonneg' r hpos
    have h3 := Int.fmod_lt_of_pos r hpos
    omega

/-- Function `mod_inverse(i, a, n)` of numtheory.c; the result is the value stored in `i`.
The sentinel `0` is stored when the final `r` exceeds 1. -/
def mod_inverse (a n : Int) : Int :=
  let rt := mod_inverse_loop n a 0 1
  if rt.1 > 1 then 0
  else if rt.2 < 0 then rt.2 + n
  else rt.2

/-- Loop of `pow_mod` on the state `(v, p, exp)`:
`while (exp > 0) { if odd(exp) v = v*p mod n; p = p*p mod n; exp = exp // 2; }`,
returning the final `v`. -/
def pow_mod_loop (modulus v p exp : Int) : Int :=
  if h : exp > 0 then
    pow_mod_loop modulus (if exp % 2 = 1 then (v * p) % modulus else v)
      ((p * p) % modulus) (Int.fdiv exp 2)
  else v
termination_by exp.toNat
decreasing_by
  have e : Int.fdiv exp 2 = exp / 2 := Int.fdiv_eq_ediv exp (by decide)
  omega

/-- Function `pow_mod(out, base, exponent, modulus)` of numtheory.c. -/
def pow_mod (base exponent modulus : Int) : Int :=
  pow_mod_loop modulus 1 base exponent

/-- Halving loop of `is_prime` on the state `(s, first, r)`:
`while (even(r)) { s += 1; first *= 2; r = n_minus_one // first; }`.
The loop does not terminate from every state (it spins on `n_minus_one = 0`),
so it is run with fuel; `none` means the fuel ran out. -/
def halving_loop (n_minus_one : Int) : Nat → Int → Int → Int → Option (Int × Int × Int)
  | 0, _, _, _ => none
  | fuel + 1, s, first, r =>
    if r % 2 = 0 then
      halving_loop n_minus_one fuel (s + 1) (first * 2) (Int.fdiv n_minus_one (first * 2))
    else some (s, first, r)

/-- Inner loop of one Miller-Rabin round together with the test that follows it:
`while (j <= s_minus_one && y != n_minus_one) { y = pow_mod(y, 2, n);
 if (y == 1) return false; j += 1; }  if (y != n_minus_one) return false;`.
The value is `false` when `is_prime` returns false from here and `true` when
the round is passed. -/
def squaring_loop (n n_minus_one s_minus_one j y : Int) : Bool :=
  if h : j ≤ s_minus_one ∧ y ≠ n_minus_one then
    if pow_mod y 2 n = 1 then false
    else squaring_loop n n_minus_one s_minus_one (j + 1) (pow_mod y 2 n)
  else decide (y = n_minus_one)
termination_by (s_minus_one + 1 - j).toNat
decreasing_by omega

/-- Body of the `for` loop of `is_prime` for a witness `a`; `true` when the round
is passed, `false` when `is_prime` returns false in this round. -/
def witness_round (n r n_minus_one s_minus_one a : Int) : Bool :=
  if pow_mod a r n ≠ 1 ∧ pow_mod a r n ≠ n_minus_one then
    squaring_loop n n_minus_one s_minus_one 1 (pow_mod a r n)
  else true

/-- The loop `for (i = 1; i < iters; i += 1)` of `is_prime`. The random state is
the stream `draws`: `draws k` is the value stored by the `(k+1)`-th call of
`mpz_urandomm(a, state, end)`, and the witness is that value plus 2. `iters` is a
`uint64_t`; `i` stays below `iters`, so the counter cannot wrap. -/
def witness_rounds (draws : Nat → Int) (n r n_minus_one s_minus_one : Int)
    (iters i : Nat) : Bool :=
  if h : i < iters then
    if witness_round n r n_minus_one s_minus_one (draws (i - 1) + 2) then
      witness_rounds draws n r n_minus_one s_minus_one iters (i + 1)
    else false
  else true
termination_by iters - i

/-- Function `is_prime(n, iters)` of numtheory.c. `fuel` bounds the halving loop and
`draws` is the stream of values produced by the random state. -/
def is_prime (fuel : Nat) (draws : Nat → Int) (n : Int) (iters : Nat) : Option Bool :=
  if n = 2 ∨ n = 3 then some true
  else if n < 2 ∨ n % 2 = 0 then some false
  else
    match halving_loop (n - 1) fuel 0 1 (n - 1) with
    | none => none
    | some (s, _, r) => some (witness_rounds draws n r (n - 1) (s - 1) iters 1)

/-- The two statements `mpz_urandomb(temp_p, state, bits); mpz_add(temp_p, temp_p, offset);`
of `make_prime`, with `offset = 2 ^ bits`: the candidate built from the drawn value `x`. -/
def make_prime_candidate (bits : Nat) (x : Int) : Int := x + 2 ^ bits

/-- Loop of `make_prime`: `while (!is_prime(temp_p, iters)) { temp_p = candidate; }`,
returning the final `temp_p`. The loop has no bound, so it is run with fuel (`none` when
the fuel runs out). `k` counts the calls of `is_prime` made so far; `cand k` is the value
stored by the `(k+1)`-th call of `mpz_urandomb` and `wit k` is the stream of
`mpz_urandomm` values seen by the `(k+1)`-th call of `is_prime`. -/
def make_prime_loop (inner : Nat) (cand : Nat → Int) (wit : Nat → Nat → Int)
    (bits iters : Nat) : Nat → Nat → Int → Option Int
  | 0, _, _ => none
  | fuel + 1, k, temp_p =>
    match is_prime inner (wit k) temp_p iters with
    | none => none
    | some true => some temp_p
    | some false =>
      make_prime_loop inner cand wit bits iters fuel (k + 1) (make_prime_candidate bits (cand k))

/-- Function `make_prime(p, bits, iters)` of numtheory.c: `temp_p` starts at 0. The same
fuel bounds the search loop and the halving loop of every `is_prime` call. -/
def make_prime (fuel : Nat) (cand : Nat → Int) (wit : Nat → Nat → Int) (bits iters : Nat) :
    Option Int :=
  make_prime_loop fuel cand wit bits iters fuel 0 0

/-- Specification of one Miller-Rabin round, in the words of the design: `a` is a strong
probable-prime base for `n`, where `n - 1 = 2 ^ s * r` with `r` odd, when
`a ^ r mod n = 1` or `a ^ (2 ^ j * r) mod n = n - 1` for some `j` with `0 ≤ j ≤ s - 1`. -/
def strong_probable_prime_base (n : Int) (s r : Nat) (a : Int) : Prop :=
  a ^ r % n = 1 ∨ ∃ j, j < s ∧ a ^ (2 ^ j * r) % n = n - 1

instance strong_probable_prime_base_decidable (n : Int) (s r : Nat) (a : Int) :
    Decidable (strong_probable_prime_base n s r a) := by
  unfold strong_probable_prime_base
  infer_instance

/-! ## rsa.c -/

/-- Function `rsa_make_priv(d, e, p, q)`: the inverse of `e` modulo `(p-1)(q-1)`. -/
def rsa_make_priv (e p q : Int) : Int :=
  mod_inverse e ((p - 1) * (q - 1))

/-- Function `rsa_encrypt(c, m, e, n)`. -/
def rsa_encrypt (m e n : Int) : Int := pow_mod m e n

/-- Function `rsa_decrypt(m, c, d, n)`. -/
def rsa_decrypt (c d n : Int) : Int := pow_mod c d n

/-- Function `rsa_sign(s, m, d, n)`. -/
def rsa_sign (m d n : Int) : Int := pow_mod m d n

/-- Function `rsa_verify(m, s, e, n)`: true exactly when `pow_mod(s, e, n)` equals `m`. -/
def rsa_verify (m s e n : Int) : Bool :=
  if pow_mod s e n = m then true else false

/-- GMP `mpz_sizeinbase(n, 2)`: the number of bits of `|n|`, and 1 for `n = 0`. -/
def mpz_sizeinbase (n : Int) : Nat :=
  if n = 0 then 1 else Nat.size n.natAbs

/-- GMP `mpz_import(m, count, 1, 1, 1, 0, array)`: the integer whose base-256 digits,
most significant first, are the bytes. -/
def mpz_import (bytes : List (Fin 256)) : Int :=
  ((Nat.ofDigits 256 (bytes.reverse.map Fin.val) : Nat) : Int)

/-- GMP `mpz_export(array, &j, 1, 1, 1, 0, m)`: the base-256 digits of `|m|`, most
significant first and without leading zero bytes; no byte at all for `m = 0`. The count
`j` stored by the call is the length of this list. -/
def mpz_export (m : Int) : List (Fin 256) :=
  ((Nat.digits 256 m.natAbs).map (fun x => (⟨x % 256, Nat.mod_lt x (by decide)⟩ : Fin 256))).reverse

/-- Values drawn from the random sources during one call of `rsa_make_pub`, one oracle per
call site. `split c` is the value of `random()` in cycle `c` of the first loop;
`p_cand c`, `p_wit c` (and `q_cand c`, `q_wit c`) are the `mpz_urandomb` and `mpz_urandomm`
values of the call `make_prime(p, ...)` (resp. `make_prime(q, ...)`) of that cycle; `e_cand k`
is the value of the `(k+1)`-th `mpz_urandomb(rand, state, nbits)` of the second loop. -/
structure PubDraws where
  split : Nat → Nat
  p_cand : Nat → Nat → Int
  p_wit : Nat → Nat → Nat → Int
  q_cand : Nat → Nat → Int
  q_wit : Nat → Nat → Nat → Int
  e_cand : Nat → Int

/-- The statement `pbits = (random() % max) + min` of `rsa_make_pub` with `max = nbits / 2`,
`min = nbits / 4`, in `uint64_t` arithmetic; `rnd` is the value of `random()`. -/
def rsa_pbits (nbits rnd : Nat) : Nat :=
  (rnd % (nbits / 2) + nbits / 4) % 2 ^ 64

/-- The statement `qbits = nbits - pbits` of `rsa_make_pub`, a wrapping `uint64_t`
subtraction. -/
def rsa_qbits (nbits pbits : Nat) : Nat :=
  (nbits + 2 ^ 64 - pbits) % 2 ^ 64

/-- First loop of `rsa_make_pub`: split the bits, generate `p` and `q`, and leave the loop
when `mpz_sizeinbase(n, 2) >= nbits`. Returns `(p, q, n)`. `c` counts the cycles. The
remainder `random() % max` with `max = 0` is a division by zero, modelled by `none`, as
is running out of fuel. -/
def rsa_make_pub_keys (inner : Nat) (D : PubDraws) (nbits iters : Nat) :
    Nat → Nat → Option (Int × Int × Int)
  | 0, _ => none
  | fuel + 1, c =>
    if nbits / 2 = 0 then none
    else
      match make_prime inner (D.p_cand c) (D.p_wit c) (rsa_pbits nbits (D.split c)) iters,
          make_prime inner (D.q_cand c) (D.q_wit c)
            (rsa_qbits nbits (rsa_pbits nbits (D.split c))) iters with
      | some p, some q =>
        if mpz_sizeinbase (p * q) ≥ nbits then some (p, q, p * q)
        else rsa_make_pub_keys inner D nbits iters fuel (c + 1)
      | _, _ => none

/-- Second loop of `rsa_make_pub`: draw `rand` until `gcd(rand, tot) = 1`. -/
def rsa_make_pub_exp (e_cand : Nat → Int) (tot : Int) : Nat → Nat → Option Int
  | 0, _ => none
  | fuel + 1, k =>
    if gcd (e_cand k) tot = 1 then some (e_cand k)
    else rsa_make_pub_exp e_cand tot fuel (k + 1)

/-- Function `rsa_make_pub(p, q, n, e, nbits, iters)` of rsa.c, returning `(p, q, n, e)`. -/
def rsa_make_pub (fuel : Nat) (D : PubDraws) (nbits iters : Nat) :
    Option (Int × Int × Int × Int) :=
  match rsa_make_pub_keys fuel D nbits iters fuel 0 with
  | none => none
  | some (p, q, n) =>
    match rsa_make_pub_exp D.e_cand ((p - 1) * (q - 1)) fuel 0 with
    | none => none
    | some e => some (p, q, n, e)

/-- The block size `k = floor((mpz_sizeinbase(n, 2) - 1) / 8)` of the file functions. -/
def block_size (n : Int) : Nat := (mpz_sizeinbase n - 1) / 8

/-- Loop of `rsa_encrypt_file`: `fread` delivers the next `k - 1` bytes of the input (fewer
at its end) into `array + 1`; while the count `j` is positive the `j + 1` bytes
`0xFF, chunk` are imported, encrypted and printed as one line. -/
def rsa_encrypt_loop (k : Nat) (n e : Int) (input : List (Fin 256)) : List Int :=
  if h : 0 < (input.take (k - 1)).length then
    rsa_encrypt (mpz_import (0xFF :: input.take (k - 1))) e n ::
      rsa_encrypt_loop k n e (input.drop (k - 1))
  else []
termination_by input.length
decreasing_by
  rw [List.length_take] at h
  rw [List.length_drop]
  omega

/-- Function `rsa_encrypt_file(infile, outfile, n, e)`: the input file is its list of bytes
and the output file the list of integers printed, one per line. With `k = 0` the store
`array[0] = 0xFF` is outside the zero-byte allocation; this is modelled by `none`. -/
def rsa_encrypt_file (input : List (Fin 256)) (n e : Int) : Option (List Int) :=
  if block_size n = 0 then none else some (rsa_encrypt_loop (block_size n) n e input)

/-- The count `j - 1` passed to `fwrite` in `rsa_decrypt_file`, a `uint64_t` subtraction. -/
def payload_count (j : Nat) : Nat := (j + 2 ^ 64 - 1) % 2 ^ 64

/-- Body of the loop of `rsa_decrypt_file` for the ciphertext `c`: decrypt, export into the
`k`-byte `array` (`mpz_export` stores the count in `j`), then
`fwrite(array + 1, 1, j - 1, outfile)`. The value is the list of bytes this puts on
`outfile`.
For `1 ≤ j ≤ k` the count `j - 1` is below `j` and the bytes are the `j - 1` exported
after the first.
For `j = 0` the count is `2 ^ 64 - 1`: the C library copies what fits into the free part
of the stream buffer, writes nothing of the remainder (its length is negative as a signed
size), and `fwrite` returns. On a stream that has not been written to (`touched = false`)
there is no buffer yet and no byte is put on the stream; otherwise the bytes lying in
memory from `array + 1` on are, and `stray` stands for them.
For `j > k`, `mpz_export` stores bytes past the end of `array`; this is `none`. -/
def rsa_decrypt_block (k : Nat) (stray : List (Fin 256)) (touched : Bool) (c n d : Int) :
    Option (List (Fin 256)) :=
  if (mpz_export (rsa_decrypt c d n)).length ≤ k then
    if payload_count (mpz_export (rsa_decrypt c d n)).length
        < (mpz_export (rsa_decrypt c d n)).length then
      some (((mpz_export (rsa_decrypt c d n)).drop 1).take
        (payload_count (mpz_export (rsa_decrypt c d n)).length))
    else some (if touched then stray else [])
  else none

/-- A sample of random draws for `rsa_make_pub` with `nbits = 4`: `random()` gives 0 (so
`pbits = 1`, `qbits = 3`), the prime candidates are built from the patterns 1 and 3, every
Miller-Rabin draw is 0 (witness 2) and the exponent candidates are 3. -/
def sample_draws : PubDraws :=
  ⟨fun _ => 0, fun _ _ => 1, fun _ _ _ => 0, fun _ _ => 3, fun _ _ _ => 0, fun _ => 3⟩

/-! ## encrypt.c -/

/-- What a run of the `encrypt` program does after the key file is read: the number of
calls of `rsa_encrypt_file`, the lines written to the output file (`none` as in
`rsa_encrypt_file`), the text written to `stderr`, and the exit status. -/
structure EncryptRun where
  encrypt_file_calls : Nat
  ciphertext : Option (List Int)
  stderr : List String
  status : Nat

/-- The end of `main` in encrypt.c: `if (rsa_verify(name, s, e, n)) rsa_encrypt_file(...);
else fprintf(stderr, "Error: invalid key.\n");` followed by `return 0`. -/
def encrypt_main (name s e n : Int) (input : List (Fin 256)) : EncryptRun :=
  if rsa_verify name s e n then
    ⟨1, rsa_encrypt_file input n e, [], 0⟩
  else
    ⟨0, some [], ["Error: invalid key.\n"], 0⟩

/-! ## Auxiliary facts about the loops -/

theorem gcd_loop_eq (b : Nat) : ∀ a : Nat, gcd_loop (a : Int) (b : Int) = (Nat.gcd a b : Int) := by
  induction b using Nat.strong_induction_on with
  | _ b ih =>
    intro a
    rw [gcd_loop]
    by_cases hb : (b : Int) ≠ 0
    · have hb0 : 0 < b := by
        rcases Nat.eq_zero_or_pos b with h | h
        · exact absurd (by rw [h]; rfl) hb
        · exact h
      have hmod : (a : Int) % (b : Int) = ((a % b : Nat) : Int) := by norm_cast
      rw [dif_pos hb, hmod, ih (a % b) (Nat.mod_lt a hb0) b, Nat.gcd_comm b (a % b),
        ← Nat.gcd_rec b a, Nat.gcd_comm]
    · have hb0 : b = 0 := by
        have := not_not.mp hb
        exact_mod_cast this
      rw [dif_neg hb, hb0, Nat.gcd_zero_right]

theorem int_gcd_sub_mul (x y q : Int) : Int.gcd y (x - q * y) = Int.gcd x y := by
  apply Nat.dvd_antisymm
  · apply Int.natCast_dvd_natCast.1
    apply Int.dvd_gcd
    · have h1 : (Int.gcd y (x - q * y) : Int) ∣ y := Int.gcd_dvd_left
      have h2 : (Int.gcd y (x - q * y) : Int) ∣ x - q * y := Int.gcd_dvd_right
      have h3 : (x - q * y) + q * y = x := by ring
      have h4 := dvd_add h2 (dvd_mul_of_dvd_right h1 q)
      rwa [h3] at h4
    · exact Int.gcd_dvd_left
  · apply Int.natCast_dvd_natCast.1
    apply Int.dvd_gcd
    · exact Int.gcd_dvd_right
    · have h1 : (Int.gcd x y : Int) ∣ x := Int.gcd_dvd_left
      have h2 : (Int.gcd x y : Int) ∣ y := Int.gcd_dvd_right
      exact dvd_sub h1 (dvd_mul_of_dvd_right h2 q)

/-- From a state with `r > 0` and `r_not ≥ 0` the loop of `mod_inverse` ends with
`r = gcd(r, r_not)`. -/
theorem mod_inverse_loop_fst (r r_not t t_not : Int) (hr : 0 < r) (hrn : 0 ≤ r_not) :
    (mod_inverse_loop r r_not t t_not).1 = (Int.gcd r r_not : Int) := by
  induction r, r_not, t, t_not using mod_inverse_loop.induct with
  | case1 r r_not t t_not h ih =>
    have hpos : 0 < r_not := lt_of_le_of_ne hrn (Ne.symm h)
    have e : r - Int.fdiv r r_not * r_not = Int.fmod r r_not := by
      rw [Int.fmod_def, Int.mul_comm]
    rw [mod_inverse_loop, dif_pos h, ih hpos (by rw [e]; exact Int.fmod_nonneg' r hpos),
      int_gcd_sub_mul]
  | case2 r r_not t t_not h =>
    have h0 : r_not = 0 := not_not.mp h
    rw [mod_inverse_loop, dif_neg h, h0, Int.gcd_zero_right, Int.natCast_natAbs,
      abs_of_pos hr]

/-- Invariant of the loop of `mod_inverse` for `a ≥ 0` and `n > 1`: the coefficients
alternate in sign, `r * t_not - r_not * t = ± n`, and `r ≡ t * a`, `r_not ≡ t_not * a`
modulo `n`. At the exit the coefficient `t` lies strictly between `-n` and `n`. -/
theorem mod_inverse_loop_snd (a n : Int) (hn : 1 < n) (r r_not t t_not : Int)
    (h1 : 0 ≤ r_not)
    (h2 : r_not < r ∨ (r = n ∧ t_not = 1))
    (h3 : (t ≤ 0 ∧ 0 ≤ t_not ∧ r * t_not - r_not * t = n) ∨
          (0 ≤ t ∧ t_not ≤ 0 ∧ r_not * t - r * t_not = n))
    (h5 : -n < t ∧ t < n)
    (h6 : r ≡ t * a [ZMOD n]) (h7 : r_not ≡ t_not * a [ZMOD n]) :
    (-n < (mod_inverse_loop r r_not t t_not).2 ∧ (mod_inverse_loop r r_not t t_not).2 < n) ∧
      (mod_inverse_loop r r_not t t_not).1 ≡ (mod_inverse_loop r r_not t t_not).2 * a [ZMOD n] := by
  induction r, r_not, t, t_not using mod_inverse_loop.induct with
  | case1 r r_not t t_not h ih =>
    have hpos : 0 < r_not := lt_of_le_of_ne h1 (Ne.symm h)
    have hr : 0 < r := by
      rcases h2 with h2 | ⟨h2, _⟩
      · omega
      · omega
    have e : r - Int.fdiv r r_not * r_not = Int.fmod r r_not := by
      rw [Int.fmod_def, Int.mul_comm]
    have hq : 0 ≤ Int.fdiv r r_not := Int.fdiv_nonneg hr.le hpos.le
    have hm0 : 0 ≤ r - Int.fdiv r r_not * r_not := by rw [e]; exact Int.fmod_nonneg' r hpos
    have hm1 : r - Int.fdiv r r_not * r_not < r_not := by rw [e]; exact Int.fmod_lt_of_pos r hpos
    rw [mod_inverse_loop, dif_pos h]
    apply ih hm0 (Or.inl hm1)
    · rcases h3 with ⟨ht, htn, hd⟩ | ⟨ht, htn, hd⟩
      · right
        refine ⟨htn, ?_, ?_⟩
        · have := mul_nonneg hq htn
          omega
        · linear_combination hd
      · left
        refine ⟨htn, ?_, ?_⟩
        · have := mul_nonneg hq (neg_nonneg.mpr htn)
          have e2 : Int.fdiv r r_not * -t_not = -(Int.fdiv r r_not * t_not) := by ring
          omega
        · linear_combination hd
    · rcases h2 with h2 | ⟨h2, h2'⟩
      · have hr2 : 2 ≤ r := by omega
        rcases h3 with ⟨ht, htn, hd⟩ | ⟨ht, htn, hd⟩
        · have hx : 0 ≤ r_not * (-t) := mul_nonneg hpos.le (neg_nonneg.mpr ht)
          have hy : 2 * t_not ≤ r * t_not := mul_le_mul_of_nonneg_right hr2 htn
          constructor
          · omega
          · nlinarith
        · have hx : 0 ≤ r_not * t := mul_nonneg hpos.le ht
          have hy : 2 * (-t_not) ≤ r * (-t_not) :=
            mul_le_mul_of_nonneg_right hr2 (neg_nonneg.mpr htn)
          constructor
          · nlinarith
          · omega
      · rw [h2']
        constructor <;> omega
    · exact h7
    · have := h6.sub (h7.mul_left (Int.fdiv r r_not))
      have e3 : t * a - Int.fdiv r r_not * (t_not * a) = (t - Int.fdiv r r_not * t_not) * a := by
        ring
      rwa [e3] at this
  | case2 r r_not t t_not h =>
    rw [mod_inverse_loop, dif_neg h]
    exact ⟨h5, h6⟩

/-- For `a ≥ 0`, `n > 1` and `gcd(a, n) = 1` the value of `mod_inverse` lies in `[1, n)`
and is an inverse of `a` modulo `n`. -/
theorem mod_inverse_spec (a n : Int) (ha : 0 ≤ a) (hn : 1 < n) (hg : Int.gcd a n = 1) :
    (1 ≤ mod_inverse a n ∧ mod_inverse a n < n) ∧ (a * mod_inverse a n) % n = 1 := by
  have hfst := mod_inverse_loop_fst n a 0 1 (by omega) ha
  rw [Int.gcd_comm, hg, Nat.cast_one] at hfst
  have hsnd := mod_inverse_loop_snd a n hn n a 0 1 ha (Or.inr ⟨rfl, rfl⟩)
    (Or.inl ⟨le_refl 0, by decide, by ring⟩) (by constructor <;> omega)
    (by rw [zero_mul]; simp [Int.ModEq])
    (by rw [one_mul])
  obtain ⟨⟨hlo, hhi⟩, hmod⟩ := hsnd
  rw [hfst] at hmod
  have hinv : ∀ i : Int, i ≡ (mod_inverse_loop n a 0 1).2 [ZMOD n] → (a * i) % n = 1 := by
    intro i hi
    have h1 : a * i ≡ 1 [ZMOD n] := by
      have := (hi.mul_right a).trans hmod.symm
      rwa [mul_comm] at this
    have h2 : (1 : Int) % n = 1 := Int.emod_eq_of_lt (by decide) hn
    rw [← h2]
    exact h1
  have hval : mod_inverse a n ≡ (mod_inverse_loop n a 0 1).2 [ZMOD n] ∧
      (0 ≤ mod_inverse a n ∧ mod_inverse a n < n) := by
    unfold mod_inverse
    simp only [hfst]
    rw [if_neg (by decide)]
    split_ifs with hneg
    · refine ⟨?_, by omega, by omega⟩
      have : (mod_inverse_loop n a 0 1).2 + n ≡ (mod_inverse_loop n a 0 1).2 + 0 [ZMOD n] :=
        Int.ModEq.add_left _ (by simp [Int.ModEq])
      rwa [add_zero] at this
    · exact ⟨Int.ModEq.refl _, by omega, hhi⟩
  have hone := hinv _ hval.1
  refine ⟨⟨?_, hval.2.2⟩, hone⟩
  rcases lt_or_eq_of_le hval.2.1 with h | h
  · omega
  · rw [← h, mul_zero, Int.zero_emod] at hone
    exact absurd hone (by decide)

theorem pow_mod_loop_eq (m : Int) (hm : 0 < m) (k : Nat) :
    ∀ v p : Int, 0 ≤ v → v < m → pow_mod_loop m v p (k : Int) = (v * p ^ k) % m := by
  induction k using Nat.strong_induction_on with
  | _ k ih =>
    intro v p hv0 hvm
    rw [pow_mod_loop]
    by_cases hk : (k : Int) > 0
    · rw [dif_pos hk]
      have hk0 : 0 < k := by exact_mod_cast hk
      have hdiv : Int.fdiv (k : Int) 2 = ((k / 2 : Nat) : Int) := by
        rw [Int.fdiv_eq_ediv _ (by decide)]; norm_cast
      rw [hdiv]
      have hlt : k / 2 < k := Nat.div_lt_self hk0 (by decide)
      have hsplit : k = 2 * (k / 2) + k % 2 := (Nat.div_add_mod k 2).symm
      have hpp : ((p * p) % m) ^ (k / 2) ≡ p ^ (2 * (k / 2)) [ZMOD m] := by
        rw [pow_mul, ← sq]
        exact (Int.mod_modEq _ _).pow _
      by_cases hodd : (k : Int) % 2 = 1
      · have hodd' : k % 2 = 1 := by omega
        rw [if_pos hodd, ih (k / 2) hlt _ _ (Int.emod_nonneg _ hm.ne') (Int.emod_lt_of_pos _ hm)]
        have h1 : (v * p) % m * ((p * p) % m) ^ (k / 2) ≡ v * p * p ^ (2 * (k / 2)) [ZMOD m] :=
          (Int.mod_modEq _ _).mul hpp
        have h2 : v * p * p ^ (2 * (k / 2)) = v * p ^ k := by
          conv_rhs => rw [hsplit, hodd', pow_add, pow_one]
          ring
        rw [← h2]
        exact h1
      · have hodd' : k % 2 = 0 := by omega
        rw [if_neg hodd, ih (k / 2) hlt _ _ hv0 hvm]
        have h1 : v * ((p * p) % m) ^ (k / 2) ≡ v * p ^ (2 * (k / 2)) [ZMOD m] :=
          Int.ModEq.mul_left v hpp
        have h2 : v * p ^ (2 * (k / 2)) = v * p ^ k := by
          conv_rhs => rw [hsplit, hodd', add_zero]
        rw [← h2]
        exact h1
    · have hk0 : k = 0 := by omega
      rw [dif_neg hk, hk0, pow_zero, mul_one, Int.emod_eq_of_lt hv0 hvm]

theorem pow_mod_eq (b : Int) (k : Nat) (m : Int) (hm : 1 < m) :
    pow_mod b (k : Int) m = b ^ k % m := by
  unfold pow_mod
  rw [pow_mod_loop_eq m (by omega) k 1 b (by decide) hm, one_mul]

/-- For `a ≥ 0` and any `n`, `mod_inverse` stores the sentinel when `gcd(a, n) > 1`. -/
theorem mod_inverse_sentinel (a n : Int) (ha : 0 ≤ a) (hg : 1 < Int.gcd a n) :
    mod_inverse a n = 0 := by
  rcases lt_or_eq_of_le ha with hpos | hzero
  · have e : n - Int.fdiv n a * a = Int.fmod n a := by
      rw [Int.fmod_def, Int.mul_comm]
    have hfst : (mod_inverse_loop n a 0 1).1 = (Int.gcd a n : Int) := by
      rw [mod_inverse_loop, dif_pos hpos.ne',
        mod_inverse_loop_fst _ _ _ _ hpos (by rw [e]; exact Int.fmod_nonneg' n hpos),
        int_gcd_sub_mul, Int.gcd_comm]
    unfold mod_inverse
    simp only [hfst]
    rw [if_pos (by exact_mod_cast hg)]
  · subst hzero
    have hloop : mod_inverse_loop n 0 0 1 = (n, 0) := by
      rw [mod_inverse_loop, dif_neg (by simp)]
    unfold mod_inverse
    simp only [hloop]
    split_ifs <;> first | rfl | omega

theorem xor_two_pow (k : Nat) :
    ∀ s : Nat, s ^^^ 2 ^ k = s + 2 ^ k ∨ (s ^^^ 2 ^ k) + 2 ^ k = s := by
  induction k with
  | zero =>
    intro s
    have h : (s ^^^ 1) % 2 = (s + 1) % 2 := Nat.xor_mod_two_eq
    have h2 : (s ^^^ 1) / 2 = s / 2 := by
      rw [Nat.xor_div_two]; simp
    simp only [pow_zero]
    omega
  | succ k ih =>
    intro s
    have h : (s ^^^ 2 ^ (k + 1)) % 2 = (s + 2 ^ (k + 1)) % 2 := Nat.xor_mod_two_eq
    have h4 : 2 ^ (k + 1) = 2 * 2 ^ k := by rw [pow_succ]; ring
    have h2 : (s ^^^ 2 ^ (k + 1)) / 2 = (s / 2) ^^^ 2 ^ k := by
      rw [Nat.xor_div_two, h4, Nat.mul_div_cancel_left _ (by decide : 0 < 2)]
    rcases ih (s / 2) with h5 | h5 <;> omega

/-- Fermat: an exponent that is 1 modulo `p - 1` fixes every residue modulo the prime `p`. -/
theorem pow_fermat (p : Nat) (hp : p.Prime) (m j : Nat) :
    m ^ (1 + (p - 1) * j) ≡ m [MOD p] := by
  haveI := Fact.mk hp
  rw [← ZMod.eq_iff_modEq_nat]
  push_cast
  by_cases h : (m : ZMod p) = 0
  · rw [h, zero_pow (by omega)]
  · rw [pow_add, pow_mul, ZMod.pow_card_sub_one_eq_one h, one_pow, pow_one, mul_one]

/-- The RSA identity: for distinct primes `p`, `q` an exponent that is 1 modulo
`(p-1)(q-1)` fixes every residue modulo `p * q`. -/
theorem rsa_core (p q : Nat) (hp : p.Prime) (hq : q.Prime) (hpq : p ≠ q) (k m : Nat)
    (hk : k % ((p - 1) * (q - 1)) = 1) : m ^ k ≡ m [MOD p * q] := by
  have hsplit : k = 1 + (p - 1) * (q - 1) * (k / ((p - 1) * (q - 1))) := by
    have := Nat.mod_add_div k ((p - 1) * (q - 1))
    rw [hk] at this
    exact this.symm
  have hcop : Nat.Coprime p q := (Nat.coprime_primes hp hq).2 hpq
  apply (Nat.modEq_and_modEq_iff_modEq_mul hcop).1
  constructor
  · rw [hsplit, mul_assoc]
    exact pow_fermat p hp m _
  · rw [hsplit, mul_comm (p - 1) (q - 1), mul_assoc]
    exact pow_fermat q hq m _

/-- Two applications of `pow_mod` with exponents `e`, `d` such that `e * d` is 1 modulo
`(p-1)(q-1)` give back a message below `p * q`. -/
theorem pow_mod_roundtrip (p q : Nat) (hp : p.Prime) (hq : q.Prime) (hpq : p ≠ q)
    (e d m : Nat) (hed : (e * d) % ((p - 1) * (q - 1)) = 1) (hm : m < p * q) :
    pow_mod (pow_mod (m : Int) (e : Int) ((p * q : Nat) : Int)) (d : Int) ((p * q : Nat) : Int)
      = (m : Int) := by
  have hn : (1 : Int) < ((p * q : Nat) : Int) := by
    have := hp.two_le
    have := hq.two_le
    have : 1 < p * q := by nlinarith
    exact_mod_cast this
  have h1 : pow_mod (m : Int) (e : Int) ((p * q : Nat) : Int) = ((m ^ e % (p * q) : Nat) : Int) := by
    rw [pow_mod_eq _ _ _ hn]; norm_cast
  rw [h1, pow_mod_eq _ _ _ hn]
  norm_cast
  rw [← Nat.pow_mod, ← pow_mul]
  have := rsa_core p q hp hq hpq (e * d) m hed
  rw [this, Nat.mod_eq_of_lt hm]

/-- The totient of a product of two distinct primes exceeds 1. -/
theorem totient_gt_one (p q : Nat) (hp : p.Prime) (hq : q.Prime) (hpq : p ≠ q) :
    1 < (p - 1) * (q - 1) := by
  have h1 := hp.two_le
  have h2 := hq.two_le
  rcases Nat.lt_or_ge 2 p with h | h
  · have : 2 * 1 ≤ (p - 1) * (q - 1) := Nat.mul_le_mul (by omega) (by omega)
    omega
  · have : 1 * 2 ≤ (p - 1) * (q - 1) := Nat.mul_le_mul (by omega) (by omega)
    omega

/-- The private exponent is a natural number `d` with `e * d` equal to 1 modulo the totient. -/
theorem rsa_make_priv_nat (p q : Nat) (hp : p.Prime) (hq : q.Prime)
    (htot : 1 < (p - 1) * (q - 1)) (e : Nat)
    (hcop : Int.gcd (e : Int) (((p : Int) - 1) * ((q : Int) - 1)) = 1) :
    ∃ d : Nat, rsa_make_priv (e : Int) (p : Int) (q : Int) = (d : Int) ∧
      (e * d) % ((p - 1) * (q - 1)) = 1 := by
  have hpc : ((p : Int) - 1) = ((p - 1 : Nat) : Int) := by
    have := hp.two_le
    omega
  have hqc : ((q : Int) - 1) = ((q - 1 : Nat) : Int) := by
    have := hq.two_le
    omega
  have hT : ((p : Int) - 1) * ((q : Int) - 1) = (((p - 1) * (q - 1) : Nat) : Int) := by
    rw [hpc, hqc]; norm_cast
  have hdef : rsa_make_priv (e : Int) (p : Int) (q : Int)
      = mod_inverse (e : Int) (((p - 1) * (q - 1) : Nat) : Int) := by
    unfold rsa_make_priv
    rw [hT]
  rw [hT] at hcop
  obtain ⟨⟨hlo, _⟩, hinv⟩ := mod_inverse_spec (e : Int) _ (Int.natCast_nonneg e)
    (by exact_mod_cast htot) hcop
  rw [hdef]
  refine ⟨(mod_inverse (e : Int) (((p - 1) * (q - 1) : Nat) : Int)).toNat, ?_, ?_⟩
  · rw [Int.toNat_of_nonneg (by omega)]
  · have hd := Int.toNat_of_nonneg (show 0 ≤ mod_inverse (e : Int) (((p - 1) * (q - 1) : Nat) : Int)
      by omega)
    rw [← hd] at hinv
    exact_mod_cast hinv

/-- A single flipped bit changes a number by a power of two, and no product of two
distinct primes divides a power of two. -/
theorem not_modEq_xor_two_pow (p q : Nat) (hp : p.Prime) (hq : q.Prime) (hpq : p ≠ q)
    (s k : Nat) : ¬ (s ^^^ 2 ^ k ≡ s [MOD p * q]) := by
  intro h
  have hdvd : p * q ∣ 2 ^ k := by
    rcases xor_two_pow k s with hx | hx
    · rw [hx] at h
      have := (Nat.modEq_iff_dvd' (Nat.le_add_right s (2 ^ k))).1 h.symm
      rwa [Nat.add_sub_cancel_left] at this
    · have h' : s ^^^ 2 ^ k ≡ (s ^^^ 2 ^ k) + 2 ^ k [MOD p * q] := by rw [hx]; exact h
      have := (Nat.modEq_iff_dvd' (Nat.le_add_right (s ^^^ 2 ^ k) (2 ^ k))).1 h'
      rwa [Nat.add_sub_cancel_left] at this
  have hp2 : p = 2 :=
    (Nat.prime_dvd_prime_iff_eq hp Nat.prime_two).1
      (hp.dvd_of_dvd_pow (dvd_trans (dvd_mul_right p q) hdvd))
  have hq2 : q = 2 :=
    (Nat.prime_dvd_prime_iff_eq hq Nat.prime_two).1
      (hq.dvd_of_dvd_pow (dvd_trans (dvd_mul_left q p) hdvd))
  exact hpq (hp2.trans hq2.symm)

/-- With `n_minus_one > 0` and fuel above the current `r`, the halving loop exits by its
own condition, with `n_minus_one = 2 ^ s * r` and `r` odd. -/
theorem halving_loop_spec (N : Int) (hN : 0 < N) :
    ∀ (fuel k : Nat) (r : Int), N = 2 ^ k * r → r.toNat < fuel →
      ∃ (k' : Nat) (r' : Int),
        halving_loop N fuel (k : Int) (2 ^ k) r = some ((k' : Int), 2 ^ k', r') ∧
          N = 2 ^ k' * r' ∧ r' % 2 = 1 := by
  intro fuel
  induction fuel with
  | zero =>
    intro k r _ h
    omega
  | succ fuel ih =>
    intro k r hNr hfuel
    have hpow : (0 : Int) < 2 ^ k := by positivity
    have hr : 0 < r := by
      by_contra hneg
      push_neg at hneg
      have := mul_nonpos_of_nonneg_of_nonpos hpow.le hneg
      omega
    rw [halving_loop]
    by_cases hev : r % 2 = 0
    · rw [if_pos hev]
      obtain ⟨r2, hr2⟩ : ∃ r2, r = 2 * r2 := ⟨r / 2, by omega⟩
      have hN2 : N = 2 ^ (k + 1) * r2 := by rw [hNr, hr2, pow_succ]; ring
      have hdiv : Int.fdiv N (2 ^ k * 2) = r2 := by
        rw [Int.fdiv_eq_ediv _ (by positivity), ← pow_succ, hN2,
          Int.mul_ediv_cancel_left _ (by positivity)]
      rw [hdiv]
      have e1 : ((k + 1 : Nat) : Int) = (k : Int) + 1 := by push_cast; ring
      have e2 : (2 : Int) ^ (k + 1) = 2 ^ k * 2 := pow_succ 2 k
      have hrec := ih (k + 1) r2 hN2 (by omega)
      rw [e1, e2] at hrec
      obtain ⟨k', r', h1, h2, h3⟩ := hrec
      exact ⟨k', r', h1, h2, h3⟩
    · rw [if_neg hev]
      exact ⟨k, r, rfl, hNr, by omega⟩

/-- Modulo a prime `n > 2`, a reduced residue whose square is 1 is `1` or `n - 1`. -/
theorem int_of_zmod_sq_eq_one (n : Nat) [Fact n.Prime] (hn : 2 < n) (y : Int) (h0 : 0 ≤ y)
    (h1 : y < n) (hsq : (y : ZMod n) ^ 2 = 1) : y = 1 ∨ y = (n : Int) - 1 := by
  rcases sq_eq_one_iff.1 hsq with h | h
  · left
    have h2 : (y : ZMod n) = ((1 : Int) : ZMod n) := by rw [h, Int.cast_one]
    rw [ZMod.intCast_eq_intCast_iff', Int.emod_eq_of_lt h0 h1,
      Int.emod_eq_of_lt (by decide) (by omega)] at h2
    exact h2
  · right
    have h2 : (y : ZMod n) = (((n : Int) - 1 : Int) : ZMod n) := by
      rw [h]; push_cast; simp
    rw [ZMod.intCast_eq_intCast_iff', Int.emod_eq_of_lt h0 h1,
      Int.emod_eq_of_lt (by omega) (by omega)] at h2
    exact h2

/-- For a prime `n` with `n - 1 = 2 ^ s * r` and a witness `a` not divisible by `n`, the
squaring loop entered at `j` with `y = a ^ (2 ^ (j-1) * r) mod n`, `y ≠ 1`, passes the round. -/
theorem squaring_loop_of_prime (n : Nat) [Fact n.Prime] (hn : 2 < n) (a : ZMod n) (ha : a ≠ 0)
    (s r : Nat) (hfact : n - 1 = 2 ^ s * r) :
    ∀ (d jn : Nat) (y : Int), jn + d = s → 1 ≤ jn → 0 ≤ y → y < n →
      (y : ZMod n) = a ^ (2 ^ (jn - 1) * r) → y ≠ 1 →
      squaring_loop (n : Int) ((n : Int) - 1) ((s : Int) - 1) (jn : Int) y = true := by
  have hexp : ∀ jn : Nat, 1 ≤ jn → 2 ^ (jn - 1) * r * 2 = 2 ^ jn * r := by
    intro jn hj
    obtain ⟨j0, rfl⟩ : ∃ j0, jn = j0 + 1 := ⟨jn - 1, by omega⟩
    rw [Nat.add_sub_cancel, pow_succ]; ring
  intro d
  induction d with
  | zero =>
    intro jn y hj hj1 hy0 hyn hy hy1
    have hjs : jn = s := by omega
    subst hjs
    have hsq : (y : ZMod n) ^ 2 = 1 := by
      rw [hy, ← pow_mul, hexp jn hj1, ← hfact]
      exact ZMod.pow_card_sub_one_eq_one ha
    rcases int_of_zmod_sq_eq_one n hn y hy0 hyn hsq with h | h
    · exact absurd h hy1
    · rw [squaring_loop, dif_neg (by omega)]
      simp [h]
  | succ d ih =>
    intro jn y hj hj1 hy0 hyn hy hy1
    rw [squaring_loop]
    by_cases hyn1 : y = (n : Int) - 1
    · rw [dif_neg (by omega)]
      simp [hyn1]
    · rw [dif_pos ⟨by omega, hyn1⟩]
      have hpm : pow_mod y 2 (n : Int) = y ^ 2 % (n : Int) := by
        exact_mod_cast pow_mod_eq y 2 (n : Int) (by omega)
      have hcast : ((pow_mod y 2 (n : Int) : Int) : ZMod n) = (y : ZMod n) ^ 2 := by
        rw [hpm, ZMod.intCast_mod]; push_cast; rfl
      have hne1 : pow_mod y 2 (n : Int) ≠ 1 := by
        intro h1
        have hsq : (y : ZMod n) ^ 2 = 1 := by rw [← hcast, h1, Int.cast_one]
        rcases int_of_zmod_sq_eq_one n hn y hy0 hyn hsq with h | h
        · exact hy1 h
        · exact hyn1 h
      rw [if_neg hne1]
      have hrec := ih (jn + 1) (pow_mod y 2 (n : Int)) (by omega) (by omega)
        (by rw [hpm]; exact Int.emod_nonneg _ (by omega))
        (by rw [hpm]; exact Int.emod_lt_of_pos _ (by omega))
        (by rw [hcast, hy, ← pow_mul, hexp jn hj1, Nat.add_sub_cancel]) hne1
      have e1 : ((jn + 1 : Nat) : Int) = (jn : Int) + 1 := by push_cast; ring
      rw [e1] at hrec
      exact hrec

/-- One Miller-Rabin round is passed for a prime `n` and a witness not divisible by `n`. -/
theorem witness_round_of_prime (n : Nat) [Fact n.Prime] (hn : 2 < n) (s r : Nat) (hs : 1 ≤ s)
    (hfact : n - 1 = 2 ^ s * r) (a : Int) (ha : (a : ZMod n) ≠ 0) :
    witness_round (n : Int) (r : Int) ((n : Int) - 1) ((s : Int) - 1) a = true := by
  unfold witness_round
  have hpm : pow_mod a (r : Int) (n : Int) = a ^ r % (n : Int) :=
    pow_mod_eq a r (n : Int) (by omega)
  split_ifs with h
  · have hrec := squaring_loop_of_prime n hn (a : ZMod n) ha s r hfact (s - 1) 1
      (pow_mod a (r : Int) (n : Int)) (by omega) le_rfl
      (by rw [hpm]; exact Int.emod_nonneg _ (by omega))
      (by rw [hpm]; exact Int.emod_lt_of_pos _ (by omega))
      (by rw [hpm, ZMod.intCast_mod]; push_cast; simp) h.1
    rw [Nat.cast_one] at hrec
    exact hrec
  · rfl

/-- The `for` loop returns true when every round is passed. -/
theorem witness_rounds_of_all (draws : Nat → Int) (n r n_minus_one s_minus_one : Int)
    (iters : Nat)
    (h : ∀ i, witness_round n r n_minus_one s_minus_one (draws (i - 1) + 2) = true) :
    ∀ d i, iters - i = d → witness_rounds draws n r n_minus_one s_minus_one iters i = true := by
  intro d
  induction d with
  | zero =>
    intro i hi
    rw [witness_rounds, dif_neg (by omega)]
  | succ d ih =>
    intro i hi
    rw [witness_rounds, dif_pos (by omega), if_pos (h i)]
    exact ih (i + 1) (by omega)

/-- No false negative: `is_prime` returns true for a prime `n` whatever witnesses in
`[2, n-2]` are drawn, once the fuel of the halving loop is at least `n`. -/
theorem is_prime_of_prime (n : Nat) (hp : n.Prime) (fuel : Nat) (hfuel : n ≤ fuel)
    (draws : Nat → Int) (hdraws : 3 < n → ∀ i, 0 ≤ draws i ∧ draws i < (n : Int) - 3)
    (iters : Nat) : is_prime fuel draws (n : Int) iters = some true := by
  haveI := Fact.mk hp
  unfold is_prime
  by_cases h23 : (n : Int) = 2 ∨ (n : Int) = 3
  · rw [if_pos h23]
  · rw [if_neg h23]
    have hn2 : 2 ≤ n := hp.two_le
    have hodd : n % 2 = 1 := hp.eq_two_or_odd.resolve_left (by omega)
    rw [if_neg (by omega)]
    have hn5 : 5 ≤ n := by omega
    obtain ⟨k', r', hloop, hN, hr'⟩ := halving_loop_spec ((n : Int) - 1) (by omega) fuel 0
      ((n : Int) - 1) (by simp) (by omega)
    rw [Nat.cast_zero, pow_zero] at hloop
    rw [hloop]
    have hr0 : 0 ≤ r' := by
      by_contra hneg
      push_neg at hneg
      have hpow : (0 : Int) ≤ 2 ^ k' := by positivity
      have := mul_nonpos_of_nonneg_of_nonpos hpow hneg.le
      omega
    lift r' to Nat using hr0
    have hk1 : 1 ≤ k' := by
      rcases Nat.eq_zero_or_pos k' with h0 | h0
      · rw [h0, pow_zero, one_mul] at hN
        omega
      · exact h0
    have hfact : n - 1 = 2 ^ k' * r' := by
      have : ((n - 1 : Nat) : Int) = ((2 ^ k' * r' : Nat) : Int) := by
        push_cast
        rw [← hN]
        omega
      exact_mod_cast this
    have hall : ∀ i, witness_round (n : Int) (r' : Int) ((n : Int) - 1) ((k' : Int) - 1)
        (draws (i - 1) + 2) = true := by
      intro i
      apply witness_round_of_prime n (by omega) k' r' hk1 hfact
      intro hz
      have hdvd := (ZMod.intCast_zmod_eq_zero_iff_dvd _ _).1 hz
      have hb := hdraws (by omega) (i - 1)
      have := Int.le_of_dvd (by omega) hdvd
      omega
    simp only []
    rw [witness_rounds_of_all draws _ _ _ _ iters hall (iters - 1) 1 rfl]

/-- Value of a block: the marker byte followed by `chunk` imports to
`255 * 256 ^ len + (value of chunk)`, which lies in `[255 * 256 ^ len, 256 ^ (len + 1))`. -/
theorem mpz_import_marker (chunk : List (Fin 256)) :
    ∃ v : Nat, v < 256 ^ chunk.length ∧
      mpz_import (0xFF :: chunk) = ((255 * 256 ^ chunk.length + v : Nat) : Int) := by
  refine ⟨Nat.ofDigits 256 (chunk.reverse.map Fin.val), ?_, ?_⟩
  · have h := Nat.ofDigits_lt_base_pow_length (b := 256) (l := chunk.reverse.map Fin.val)
      (by decide) (by
        intro x hx
        obtain ⟨y, _, rfl⟩ := List.mem_map.1 hx
        exact y.isLt)
    simpa using h
  · unfold mpz_import
    rw [List.reverse_cons, List.map_append, Nat.ofDigits_append]
    simp only [List.map_cons, List.map_nil, Nat.ofDigits_singleton, List.length_map,
      List.length_reverse]
    have h255 : ((0xFF : Fin 256) : Nat) = 255 := rfl
    rw [h255]
    congr 1
    ring

/-- A positive modulus is at least `256 ^ block_size`. -/
theorem pow_block_size_le (n : Nat) (hn : 0 < n) : 256 ^ block_size (n : Int) ≤ n := by
  have hsz : mpz_sizeinbase (n : Int) = Nat.size n := by
    unfold mpz_sizeinbase
    rw [if_neg (by omega), Int.natAbs_ofNat]
  have hpos : 0 < Nat.size n := Nat.size_pos.2 hn
  have h1 : 2 ^ (Nat.size n - 1) ≤ n := Nat.lt_size.1 (by omega)
  have h2 : 8 * block_size (n : Int) ≤ Nat.size n - 1 := by
    unfold block_size
    rw [hsz]
    exact Nat.mul_div_le _ 8
  calc 256 ^ block_size (n : Int) = 2 ^ (8 * block_size (n : Int)) := by
        rw [pow_mul]; norm_num
    _ ≤ 2 ^ (Nat.size n - 1) := Nat.pow_le_pow_right (by decide) h2
    _ ≤ n := h1

/-- A block of at most `block_size n` bytes that starts with the marker is a positive
integer below `n`. -/
theorem mpz_import_marker_lt (n : Int) (hn : 0 < n) (chunk : List (Fin 256))
    (hj : chunk.length + 1 ≤ block_size n) :
    0 < mpz_import (0xFF :: chunk) ∧ mpz_import (0xFF :: chunk) < n := by
  lift n to Nat using hn.le
  have hn' : 0 < n := by exact_mod_cast hn
  obtain ⟨v, hv, hval⟩ := mpz_import_marker chunk
  have hpow : 0 < 256 ^ chunk.length := by positivity
  have h1 : 256 ^ (chunk.length + 1) ≤ 256 ^ block_size (n : Int) :=
    Nat.pow_le_pow_right (by decide) hj
  have h2 := pow_block_size_le n hn'
  have h3 : 256 ^ (chunk.length + 1) = 256 * 256 ^ chunk.length := by rw [pow_succ]; ring
  rw [hval]
  constructor
  · have : 0 < 255 * 256 ^ chunk.length + v := by omega
    exact_mod_cast this
  · have : 255 * 256 ^ chunk.length + v < n := by omega
    exact_mod_cast this

/-- The bit length and the block size of a natural number between two powers of two. -/
theorem block_size_eq (n k : Nat) (h1 : 2 ^ k ≤ n) (h2 : n < 2 ^ (k + 1)) :
    mpz_sizeinbase (n : Int) = k + 1 ∧ block_size (n : Int) = k / 8 := by
  have hn : 0 < n := lt_of_lt_of_le (by positivity) h1
  have hsz : mpz_sizeinbase (n : Int) = k + 1 := by
    unfold mpz_sizeinbase
    rw [if_neg (by omega), Int.natAbs_ofNat]
    exact le_antisymm (Nat.size_le.2 h2) (Nat.lt_size.2 h1)
  refine ⟨hsz, ?_⟩
  unfold block_size
  rw [hsz, Nat.add_sub_cancel]

/-- Number of lines printed by the loop of `rsa_encrypt_file` for `k ≥ 2`. -/
theorem rsa_encrypt_loop_length (k : Nat) (hk : 2 ≤ k) (n e : Int) :
    ∀ (L : Nat) (input : List (Fin 256)), input.length = L →
      (rsa_encrypt_loop k n e input).length = (L + (k - 2)) / (k - 1) := by
  intro L
  induction L using Nat.strong_induction_on with
  | _ L ih =>
    intro input hL
    rw [rsa_encrypt_loop]
    by_cases h : 0 < (input.take (k - 1)).length
    · rw [dif_pos h, List.length_cons]
      rw [List.length_take] at h
      have hrec := ih (L - (k - 1)) (by omega) (input.drop (k - 1))
        (by rw [List.length_drop, hL])
      rw [hrec]
      rcases Nat.lt_or_ge L (k - 1) with hlt | hge
      · have e1 : L - (k - 1) = 0 := by omega
        rw [e1, Nat.zero_add, Nat.div_eq_of_lt (by omega)]
        symm
        apply Nat.div_eq_of_lt_le <;> omega
      · have e1 : L + (k - 2) = (L - (k - 1) + (k - 2)) + (k - 1) := by omega
        rw [e1, Nat.add_div_right _ (by omega)]
    · rw [dif_neg h]
      rw [List.length_take] at h
      have e1 : L = 0 := by omega
      rw [e1, Nat.zero_add, Nat.div_eq_of_lt (by omega)]
      rfl

/-- The `i`-th line printed by the loop of `rsa_encrypt_file` is the encryption of the
block built from the `i`-th group of `k - 1` input bytes. -/
theorem rsa_encrypt_loop_get (k : Nat) (n e : Int) :
    ∀ (i : Nat) (input : List (Fin 256)), i < (rsa_encrypt_loop k n e input).length →
      (rsa_encrypt_loop k n e input)[i]? =
        some (rsa_encrypt (mpz_import (0xFF :: (input.drop (i * (k - 1))).take (k - 1))) e n) := by
  intro i
  induction i with
  | zero =>
    intro input hi
    rw [rsa_encrypt_loop] at hi ⊢
    by_cases h : 0 < (input.take (k - 1)).length
    · rw [dif_pos h]
      simp
    · rw [dif_neg h] at hi
      simp at hi
  | succ i ih =>
    intro input hi
    rw [rsa_encrypt_loop] at hi ⊢
    by_cases h : 0 < (input.take (k - 1)).length
    · rw [dif_pos h] at hi ⊢
      rw [List.length_cons] at hi
      rw [List.getElem?_cons_succ, ih (input.drop (k - 1)) (by omega), List.drop_drop]
      have e1 : k - 1 + i * (k - 1) = (i + 1) * (k - 1) := by ring
      rw [e1]
    · rw [dif_neg h] at hi
      simp at hi

/-- An index below `ceil(L / (k-1))` starts inside the input, and a non-final index is
followed by a full group. -/
theorem chunk_index_bounds (L k i : Nat) (hk : 2 ≤ k) (hi : i < (L + (k - 2)) / (k - 1)) :
    i * (k - 1) < L ∧ (i + 1 < (L + (k - 2)) / (k - 1) → (i + 1) * (k - 1) < L) := by
  have hpos : 0 < k - 1 := by omega
  have key : ∀ j, j < (L + (k - 2)) / (k - 1) → j * (k - 1) < L := by
    intro j hj
    have h1 : (j + 1) * (k - 1) ≤ L + (k - 2) := (Nat.le_div_iff_mul_le hpos).1 hj
    have h2 : (j + 1) * (k - 1) = j * (k - 1) + (k - 1) := by ring
    omega
  exact ⟨key i hi, fun h => key (i + 1) h⟩

/-- An integer from 1 to 255 is exported as one byte, so the count `j - 1` is 0. -/
theorem payload_count_one_byte (m : Int) (h1 : 1 ≤ m) (h2 : m ≤ 255) :
    (mpz_export m).length = 1 ∧ payload_count (mpz_export m).length = 0 := by
  have hlen : (mpz_export m).length = 1 := by
    unfold mpz_export
    rw [List.length_reverse, List.length_map,
      Nat.digits_of_two_le_of_pos (by decide) (by omega),
      Nat.div_eq_of_lt (by omega)]
    simp
  rw [hlen]
  exact ⟨rfl, by decide⟩

/-- A number accepted by `is_prime` is at least 2. -/
theorem is_prime_true_ge_two (fuel : Nat) (draws : Nat → Int) (n : Int) (iters : Nat)
    (h : is_prime fuel draws n iters = some true) : 2 ≤ n := by
  unfold is_prime at h
  by_cases h23 : n = 2 ∨ n = 3
  · omega
  · rw [if_neg h23] at h
    by_cases hg : n < 2 ∨ n % 2 = 0
    · rw [if_pos hg] at h
      simp at h
    · omega

/-- A value returned by the loop of `make_prime` was accepted by `is_prime`, and it is the
initial `temp_p` or one of the candidates. -/
theorem make_prime_loop_some (inner : Nat) (cand : Nat → Int) (wit : Nat → Nat → Int)
    (bits iters : Nat) :
    ∀ (fuel k : Nat) (t p : Int),
      make_prime_loop inner cand wit bits iters fuel k t = some p →
      (∃ k', is_prime inner (wit k') p iters = some true) ∧
        (p = t ∨ ∃ j, p = make_prime_candidate bits (cand j)) := by
  intro fuel
  induction fuel with
  | zero =>
    intro k t p h
    simp [make_prime_loop] at h
  | succ fuel ih =>
    intro k t p h
    rw [make_prime_loop] at h
    rcases hip : is_prime inner (wit k) t iters with _ | b
    · rw [hip] at h
      simp at h
    · rw [hip] at h
      cases b with
      | true =>
        simp only [Option.some.injEq] at h
        subst h
        exact ⟨⟨k, hip⟩, Or.inl rfl⟩
      | false =>
        simp only at h
        obtain ⟨h1, h2⟩ := ih (k + 1) _ p h
        refine ⟨h1, Or.inr ?_⟩
        rcases h2 with h2 | h2
        · exact ⟨k, h2⟩
        · exact h2

/-- A value returned by `make_prime` is a candidate that `is_prime` accepted. -/
theorem make_prime_some (fuel : Nat) (cand : Nat → Int) (wit : Nat → Nat → Int)
    (bits iters : Nat) (p : Int) (h : make_prime fuel cand wit bits iters = some p) :
    (∃ k', is_prime fuel (wit k') p iters = some true) ∧
      ∃ j, p = make_prime_candidate bits (cand j) := by
  obtain ⟨⟨k', hk'⟩, h2⟩ := make_prime_loop_some fuel cand wit bits iters fuel 0 0 p h
  refine ⟨⟨k', hk'⟩, ?_⟩
  rcases h2 with h2 | h2
  · have := is_prime_true_ge_two _ _ _ _ hk'
    omega
  · exact h2

/-- The first loop of `rsa_make_pub` ends in a cycle whose two `make_prime` calls returned
`p` and `q`, with `n = p * q` of at least `nbits` bits. -/
theorem rsa_make_pub_keys_some (inner : Nat) (D : PubDraws) (nbits iters : Nat) :
    ∀ (fuel c : Nat) (p q n : Int),
      rsa_make_pub_keys inner D nbits iters fuel c = some (p, q, n) →
      ∃ c', nbits / 2 ≠ 0 ∧
        make_prime inner (D.p_cand c') (D.p_wit c') (rsa_pbits nbits (D.split c')) iters
          = some p ∧
        make_prime inner (D.q_cand c') (D.q_wit c')
          (rsa_qbits nbits (rsa_pbits nbits (D.split c'))) iters = some q ∧
        n = p * q ∧ nbits ≤ mpz_sizeinbase n := by
  intro fuel
  induction fuel with
  | zero =>
    intro c p q n h
    simp [rsa_make_pub_keys] at h
  | succ fuel ih =>
    intro c p q n h
    rw [rsa_make_pub_keys] at h
    by_cases hmax : nbits / 2 = 0
    · rw [if_pos hmax] at h
      simp at h
    · rw [if_neg hmax] at h
      rcases hp : make_prime inner (D.p_cand c) (D.p_wit c) (rsa_pbits nbits (D.split c)) iters
        with _ | p'
      · rw [hp] at h
        simp at h
      · rcases hq : make_prime inner (D.q_cand c) (D.q_wit c)
          (rsa_qbits nbits (rsa_pbits nbits (D.split c))) iters with _ | q'
        · rw [hp, hq] at h
          simp at h
        · rw [hp, hq] at h
          simp only at h
          by_cases hsz : mpz_sizeinbase (p' * q') ≥ nbits
          · rw [if_pos hsz] at h
            simp only [Option.some.injEq, Prod.mk.injEq] at h
            obtain ⟨rfl, rfl, rfl⟩ := h
            exact ⟨c, hmax, hp, hq, rfl, hsz⟩
          · rw [if_neg hsz] at h
            exact ih (c + 1) p q n h

/-- The second loop of `rsa_make_pub` returns a drawn value whose `gcd` with the totient,
as computed by the routine `gcd`, is 1. -/
theorem rsa_make_pub_exp_some (e_cand : Nat → Int) (tot : Int) :
    ∀ (fuel k : Nat) (e : Int), rsa_make_pub_exp e_cand tot fuel k = some e →
      ∃ k', e = e_cand k' ∧ gcd e tot = 1 := by
  intro fuel
  induction fuel with
  | zero =>
    intro k e h
    simp [rsa_make_pub_exp] at h
  | succ fuel ih =>
    intro k e h
    rw [rsa_make_pub_exp] at h
    by_cases hg : gcd (e_cand k) tot = 1
    · rw [if_pos hg] at h
      simp only [Option.some.injEq] at h
      subst h
      exact ⟨k, rfl, hg⟩
    · rw [if_neg hg] at h
      exact ih (k + 1) e h

/-- What a returning call of `rsa_make_pub` went through. -/
theorem rsa_make_pub_some (fuel : Nat) (D : PubDraws) (nbits iters : Nat) (p q n e : Int)
    (h : rsa_make_pub fuel D nbits iters = some (p, q, n, e)) :
    (∃ c, nbits / 2 ≠ 0 ∧
        make_prime fuel (D.p_cand c) (D.p_wit c) (rsa_pbits nbits (D.split c)) iters
          = some p ∧
        make_prime fuel (D.q_cand c) (D.q_wit c)
          (rsa_qbits nbits (rsa_pbits nbits (D.split c))) iters = some q ∧
        n = p * q ∧ nbits ≤ mpz_sizeinbase n) ∧
      ∃ k, e = D.e_cand k ∧ gcd e ((p - 1) * (q - 1)) = 1 := by
  unfold rsa_make_pub at h
  rcases hk : rsa_make_pub_keys fuel D nbits iters fuel 0 with _ | ⟨p', q', n'⟩
  · rw [hk] at h
    simp at h
  · rw [hk] at h
    simp only at h
    rcases he : rsa_make_pub_exp D.e_cand ((p' - 1) * (q' - 1)) fuel 0 with _ | e'
    · rw [he] at h
      simp at h
    · rw [he] at h
      simp only [Option.some.injEq, Prod.mk.injEq] at h
      obtain ⟨rfl, rfl, rfl, rfl⟩ := h
      exact ⟨rsa_make_pub_keys_some fuel D nbits iters fuel 0 _ _ _ hk,
        rsa_make_pub_exp_some D.e_cand _ fuel 0 _ he⟩

/-- A candidate built from a `bits`-bit pattern lies in `[2 ^ bits, 2 ^ (bits + 1))` and
has `bits + 1` significant bits. -/
theorem make_prime_candidate_range (bits : Nat) (x : Int) (h0 : 0 ≤ x) (h1 : x < 2 ^ bits) :
    2 ^ bits ≤ make_prime_candidate bits x ∧ make_prime_candidate bits x < 2 ^ (bits + 1) ∧
      mpz_sizeinbase (make_prime_candidate bits x) = bits + 1 := by
  unfold make_prime_candidate
  have hpow : (2 : Int) ^ (bits + 1) = 2 * 2 ^ bits := by rw [pow_succ]; ring
  have hlo : (2 : Int) ^ bits ≤ x + 2 ^ bits := by omega
  have hhi : x + 2 ^ bits < (2 : Int) ^ (bits + 1) := by omega
  refine ⟨hlo, hhi, ?_⟩
  have hnn : 0 ≤ x + (2 : Int) ^ bits := le_trans (by positivity) hlo
  obtain ⟨m, hm⟩ := Int.eq_ofNat_of_zero_le hnn
  rw [hm] at hlo hhi ⊢
  exact (block_size_eq m bits (by exact_mod_cast hlo) (by exact_mod_cast hhi)).1

/-- The only candidate equal to 2 is built with `bits = 1`. -/
theorem make_prime_candidate_eq_two (bits : Nat) (x : Int) (h0 : 0 ≤ x) (h1 : x < 2 ^ bits)
    (h : make_prime_candidate bits x = 2) : bits = 1 := by
  obtain ⟨hlo, hhi, _⟩ := make_prime_candidate_range bits x h0 h1
  rw [h] at hlo hhi
  rcases Nat.lt_or_ge bits 1 with hb | hb
  · have : bits = 0 := by omega
    subst this
    norm_num at hhi
  · rcases Nat.lt_or_ge 1 bits with hb2 | hb2
    · have h4 : (2 : Int) ^ 2 ≤ 2 ^ bits := pow_le_pow_right₀ (by decide) hb2
      norm_num at h4
      omega
    · omega

/-- The routine `gcd` agrees with the mathematical gcd on non-negative integers. -/
theorem gcd_eq_int_gcd (a b : Int) (ha : 0 ≤ a) (hb : 0 ≤ b) : gcd a b = (Int.gcd a b : Int) := by
  lift a to Nat using ha
  lift b to Nat using hb
  unfold gcd
  rw [gcd_loop_eq b a, Int.gcd_natCast_natCast]

/-- With the sample draws, `rsa_make_pub(4, 3)` returns `p = 3`, `q = 11`, `n = 33`, `e = 3`. -/
theorem rsa_make_pub_sample :
    rsa_make_pub 10 sample_draws 4 3 = some (3, 11, 33, 3) := by
  have hp : make_prime 10 (fun _ => 1) (fun _ _ => 0) 1 3 = some 3 := by
    simp [make_prime, make_prime_loop, make_prime_candidate, is_prime]
  have hq : make_prime 10 (fun _ => 3) (fun _ _ => 0) 3 3 = some 11 := by
    simp [make_prime, make_prime_loop, make_prime_candidate, is_prime, halving_loop,
      witness_rounds, witness_round, squaring_loop, pow_mod, pow_mod_loop]
  have hsz : mpz_sizeinbase 33 = 6 :=
    (block_size_eq 33 5 (by norm_num) (by norm_num)).1
  have hb1 : rsa_pbits 4 0 = 1 := by decide
  have hb2 : rsa_qbits 4 1 = 3 := by decide
  have hk : rsa_make_pub_keys 10 sample_draws 4 3 10 0 = some (3, 11, 33) := by
    simp [rsa_make_pub_keys, sample_draws, hb1, hb2, hp, hq, hsz]
  have he : rsa_make_pub_exp (fun _ => 3) ((3 - 1) * (11 - 1)) 10 0 = some 3 := by
    simp [rsa_make_pub_exp, gcd, gcd_loop]
  unfold rsa_make_pub
  rw [hk]
  simp only [sample_draws]
  rw [he]

/-- More fuel does not change a result of the halving loop. -/
theorem halving_loop_mono (N : Int) :
    ∀ (f : Nat) (s first r : Int) (x : Int × Int × Int),
      halving_loop N f s first r = some x →
      ∀ f', f ≤ f' → halving_loop N f' s first r = some x := by
  intro f
  induction f with
  | zero =>
    intro s first r x h
    simp [halving_loop] at h
  | succ f ih =>
    intro s first r x h f' hf
    obtain ⟨g, rfl⟩ : ∃ g, f' = g + 1 := ⟨f' - 1, by omega⟩
    rw [halving_loop] at h ⊢
    by_cases hev : r % 2 = 0
    · rw [if_pos hev] at h ⊢
      exact ih _ _ _ x h g (by omega)
    · rw [if_neg hev] at h ⊢
      exact h

/-- The `for` loop of `is_prime` returns true exactly when every round from `i` on is
passed. -/
theorem witness_rounds_iff (draws : Nat → Int) (n r n_minus_one s_minus_one : Int)
    (iters : Nat) :
    ∀ d i, iters - i = d →
      (witness_rounds draws n r n_minus_one s_minus_one iters i = true ↔
        ∀ j, i ≤ j → j < iters →
          witness_round n r n_minus_one s_minus_one (draws (j - 1) + 2) = true) := by
  intro d
  induction d with
  | zero =>
    intro i hi
    rw [witness_rounds, dif_neg (by omega)]
    constructor
    · intro _ j h1 h2
      omega
    · intro _
      rfl
  | succ d ih =>
    intro i hi
    rw [witness_rounds, dif_pos (by omega)]
    by_cases hr : witness_round n r n_minus_one s_minus_one (draws (i - 1) + 2) = true
    · rw [if_pos hr, ih (i + 1) (by omega)]
      constructor
      · intro h j h1 h2
        rcases Nat.eq_or_lt_of_le h1 with he | hl
        · rw [← he]; exact hr
        · exact h j hl h2
      · intro h j h1 h2
        exact h j (by omega) h2
    · rw [if_neg hr]
      constructor
      · intro h
        exact absurd h (by decide)
      · intro h
        exact absurd (h i (le_refl i) (by omega)) hr

/-- Squaring a reduced power: `pow_mod(a^x mod n, 2, n) = a^(2x) mod n`. -/
theorem pow_mod_two_of_pow (n : Nat) (hn : 2 < n) (a x : Nat) :
    pow_mod ((a ^ x % n : Nat) : Int) 2 (n : Int) = ((a ^ (x * 2) % n : Nat) : Int) := by
  have h := pow_mod_eq ((a ^ x % n : Nat) : Int) 2 (n : Int) (by omega)
  rw [Nat.cast_ofNat] at h
  rw [h, pow_mul, Nat.pow_mod (a ^ x) 2 n]
  norm_cast

/-- The squaring loop entered at `j` with `y = a^(2^(j-1) r) mod n`, `y ≠ 1`, passes the
round exactly when some later power `a^(2^i r)`, `j - 1 ≤ i < s`, is `n - 1` modulo `n`. -/
theorem squaring_loop_iff (n : Nat) (hn : 2 < n) (a s r : Nat) :
    ∀ d j : Nat, j + d = s → 1 ≤ j → a ^ (2 ^ (j - 1) * r) % n ≠ 1 →
      (squaring_loop (n : Int) ((n : Int) - 1) ((s : Int) - 1) (j : Int)
          ((a ^ (2 ^ (j - 1) * r) % n : Nat) : Int) = true ↔
        ∃ i, j - 1 ≤ i ∧ i < s ∧ a ^ (2 ^ i * r) % n = n - 1) := by
  have hexp : ∀ j : Nat, 1 ≤ j → 2 ^ (j - 1) * r * 2 = 2 ^ j * r := by
    intro j hj
    obtain ⟨j0, rfl⟩ : ∃ j0, j = j0 + 1 := ⟨j - 1, by omega⟩
    rw [Nat.add_sub_cancel, pow_succ]; ring
  have hcast : ∀ y : Nat, ((y : Int) = (n : Int) - 1 ↔ y = n - 1) := by
    intro y
    omega
  intro d
  induction d with
  | zero =>
    intro j hj hj1 hy1
    have hjs : j = s := by omega
    subst hjs
    rw [squaring_loop, dif_neg (by omega), decide_eq_true_eq, hcast]
    constructor
    · intro h
      exact ⟨j - 1, le_refl _, by omega, h⟩
    · rintro ⟨i, h1, h2, h3⟩
      have : i = j - 1 := by omega
      rw [this] at h3
      exact h3
  | succ d ih =>
    intro j hj hj1 hy1
    rw [squaring_loop]
    by_cases hy : a ^ (2 ^ (j - 1) * r) % n = n - 1
    · rw [dif_neg (fun h => h.2 ((hcast _).2 hy)), decide_eq_true_eq, hcast]
      exact ⟨fun _ => ⟨j - 1, le_refl _, by omega, hy⟩, fun _ => hy⟩
    · rw [dif_pos ⟨by omega, fun h => hy ((hcast _).1 h)⟩, pow_mod_two_of_pow n hn, hexp j hj1]
      by_cases h1 : a ^ (2 ^ j * r) % n = 1
      · rw [if_pos (by exact_mod_cast h1)]
        constructor
        · intro h
          exact absurd h (by decide)
        · rintro ⟨i, hi1, hi2, hi3⟩
          exfalso
          rcases Nat.lt_or_ge i j with hlt | hge
          · have : i = j - 1 := by omega
            rw [this] at hi3
            exact hy hi3
          · obtain ⟨t, rfl⟩ : ∃ t, i = j + t := ⟨i - j, by omega⟩
            have e1 : 2 ^ (j + t) * r = 2 ^ j * r * 2 ^ t := by rw [pow_add]; ring
            rw [e1, pow_mul, Nat.pow_mod, h1, one_pow, Nat.mod_eq_of_lt (by omega)] at hi3
            omega
      · rw [if_neg (by exact_mod_cast h1)]
        have hrec := ih (j + 1) (by omega) (by omega) (by rw [Nat.add_sub_cancel]; exact h1)
        rw [Nat.add_sub_cancel] at hrec
        have e2 : ((j + 1 : Nat) : Int) = (j : Int) + 1 := by push_cast; ring
        rw [e2] at hrec
        rw [hrec]
        constructor
        · rintro ⟨i, hi1, hi2, hi3⟩
          exact ⟨i, by omega, hi2, hi3⟩
        · rintro ⟨i, hi1, hi2, hi3⟩
          refine ⟨i, ?_, hi2, hi3⟩
          rcases Nat.lt_or_ge i j with hlt | hge
          · have : i = j - 1 := by omega
            rw [this] at hi3
            exact absurd hi3 hy
          · exact hge

/-- One round of `is_prime` is passed exactly when the witness is a strong probable-prime
base: `a^r mod n = 1` or `a^(2^i r) mod n = n - 1` for some `i < s`. -/
theorem witness_round_iff (n : Nat) (hn : 2 < n) (s r : Nat) (hs : 1 ≤ s) (a : Nat) :
    witness_round (n : Int) (r : Int) ((n : Int) - 1) ((s : Int) - 1) (a : Int) = true ↔
      (a ^ r % n = 1 ∨ ∃ i, i < s ∧ a ^ (2 ^ i * r) % n = n - 1) := by
  have hpm : pow_mod (a : Int) (r : Int) (n : Int) = ((a ^ r % n : Nat) : Int) := by
    rw [pow_mod_eq _ _ _ (by omega)]; norm_cast
  unfold witness_round
  rw [hpm]
  by_cases h1 : a ^ r % n = 1
  · rw [if_neg (by rw [h1]; simp)]
    exact ⟨fun _ => Or.inl h1, fun _ => rfl⟩
  · by_cases h2 : a ^ r % n = n - 1
    · rw [if_neg (by
        intro h
        apply h.2
        omega)]
      exact ⟨fun _ => Or.inr ⟨0, by omega, by rw [pow_zero, one_mul]; exact h2⟩, fun _ => rfl⟩
    · rw [if_pos ⟨by exact_mod_cast h1, by omega⟩]
      have hrec := squaring_loop_iff n hn a s r (s - 1) 1 (by omega) (le_refl 1)
        (by rw [Nat.sub_self, pow_zero, one_mul]; exact h1)
      rw [Nat.sub_self, pow_zero, one_mul, Nat.cast_one] at hrec
      rw [hrec]
      constructor
      · rintro ⟨i, _, hi2, hi3⟩
        exact Or.inr ⟨i, hi2, hi3⟩
      · rintro (h | ⟨i, hi2, hi3⟩)
        · exact absurd h h1
        · exact ⟨i, by omega, hi2, hi3⟩

/-- For `n = 9` (`n - 1 = 2^3 * 1`) `is_prime` runs its rounds with `s = 3`, `r = 1`. -/
theorem is_prime_nine (fuel : Nat) (hfuel : 4 ≤ fuel) (draws : Nat → Int) (iters : Nat) :
    is_prime fuel draws 9 iters = some (witness_rounds draws 9 1 (9 - 1) (3 - 1) iters 1) := by
  have hbase : halving_loop (9 - 1) 4 0 1 (9 - 1) = some (3, 8, 1) := by
    simp [halving_loop]
  have hloop := halving_loop_mono _ _ _ _ _ _ hbase fuel hfuel
  unfold is_prime
  rw [if_neg (by decide), if_neg (by decide), hloop]

/-- For `n = 561` (`n - 1 = 2^4 * 35`) `is_prime` runs its rounds with `s = 4`, `r = 35`. -/
theorem is_prime_561 (fuel : Nat) (hfuel : 5 ≤ fuel) (draws : Nat → Int) (iters : Nat) :
    is_prime fuel draws 561 iters
      = some (witness_rounds draws 561 35 (561 - 1) (4 - 1) iters 1) := by
  have hbase : halving_loop (561 - 1) 5 0 1 (561 - 1) = some (4, 16, 35) := by
    simp [halving_loop]
  have hloop := halving_loop_mono _ _ _ _ _ _ hbase fuel hfuel
  unfold is_prime
  rw [if_neg (by decide), if_neg (by decide), hloop]

/-- No witness in `[2, 7]` is a strong probable-prime base for 9. -/
theorem witness_round_nine (x : Int) (h0 : 0 ≤ x) (h1 : x < 9 - 3) :
    witness_round 9 1 (9 - 1) (3 - 1) (x + 2) = false := by
  have table : ∀ a, a < 8 → 2 ≤ a →
      ¬ (a ^ 1 % 9 = 1 ∨ ∃ i, i < 3 ∧ a ^ (2 ^ i * 1) % 9 = 9 - 1) := by decide
  obtain ⟨a, ha⟩ := Int.eq_ofNat_of_zero_le (show 0 ≤ x + 2 by omega)
  have h := witness_round_iff 9 (by decide) 3 1 (by decide) a
  simp only [Nat.cast_ofNat, Nat.cast_one] at h
  rw [ha]
  have hn := table a (by omega) (by omega)
  rw [← h] at hn
  simpa using hn

set_option maxRecDepth 100000 in
set_option exponentiation.threshold 600 in
/-- The witnesses in `[2, 559]` that are strong probable-prime bases for 561 are
50, 101, 103, 256, 305, 458, 460 and 511. -/
theorem witness_round_561 (x : Int) (h0 : 0 ≤ x) (h1 : x < 561 - 3) :
    witness_round 561 35 (561 - 1) (4 - 1) (x + 2) = true ↔
      x + 2 ∈ ([50, 101, 103, 256, 305, 458, 460, 511] : List Int) := by
  have table : ∀ a, a < 560 → 2 ≤ a →
      ((a ^ 35 % 561 = 1 ∨ ∃ i, i < 4 ∧ a ^ (2 ^ i * 35) % 561 = 561 - 1) ↔
        a ∈ [50, 101, 103, 256, 305, 458, 460, 511]) := by decide
  obtain ⟨a, ha⟩ := Int.eq_ofNat_of_zero_le (show 0 ≤ x + 2 by omega)
  have h := witness_round_iff 561 (by decide) 4 35 (by decide) a
  simp only [Nat.cast_ofNat] at h
  rw [ha, h, table a (by omega) (by omega)]
  simp only [List.mem_cons, List.mem_singleton, List.not_mem_nil, or_false]
  omega

/-- For 561 the answer of `is_prime` is true exactly when every witness drawn is one of
the eight strong liars. -/
theorem is_prime_561_iff (fuel : Nat) (hfuel : 5 ≤ fuel) (draws : Nat → Int) (iters : Nat)
    (hr : ∀ i, 0 ≤ draws i ∧ draws i < 561 - 3) :
    (is_prime fuel draws 561 iters = some true ↔
      ∀ i, i + 1 < iters →
        draws i + 2 ∈ ([50, 101, 103, 256, 305, 458, 460, 511] : List Int)) ∧
    (is_prime fuel draws 561 iters = some false ↔
      ∃ i, i + 1 < iters ∧
        draws i + 2 ∉ ([50, 101, 103, 256, 305, 458, 460, 511] : List Int)) := by
  have hiff : witness_rounds draws 561 35 (561 - 1) (4 - 1) iters 1 = true ↔
      ∀ i, i + 1 < iters →
        draws i + 2 ∈ ([50, 101, 103, 256, 305, 458, 460, 511] : List Int) := by
    rw [witness_rounds_iff draws _ _ _ _ iters (iters - 1) 1 rfl]
    constructor
    · intro h i hi
      have := h (i + 1) (by omega) hi
      rw [Nat.add_sub_cancel] at this
      exact (witness_round_561 _ (hr i).1 (hr i).2).1 this
    · intro h j hj1 hj2
      have := h (j - 1) (by omega)
      exact (witness_round_561 _ (hr (j - 1)).1 (hr (j - 1)).2).2 this
  rw [is_prime_561 fuel hfuel]
  constructor
  · rw [Option.some.injEq, hiff]
  · rw [Option.some.injEq, ← Bool.not_eq_true, hiff]
    push_neg
    rfl

/-- On an empty input `rsa_encrypt_file` prints nothing. -/
theorem rsa_encrypt_file_nil (n e : Int) (hk : block_size n ≠ 0) :
    rsa_encrypt_file [] n e = some [] := by
  unfold rsa_encrypt_file
  rw [if_neg hk, rsa_encrypt_loop, dif_neg (by simp)]

/-- Exporting the integer of a block that starts with the marker gives the block back. -/
theorem mpz_export_import_marker (chunk : List (Fin 256)) :
    mpz_export (mpz_import (0xFF :: chunk)) = 0xFF :: chunk := by
  unfold mpz_export mpz_import
  rw [Int.natAbs_ofNat, Nat.digits_ofDigits 256 (by decide)]
  · rw [List.map_map]
    have hid : ((fun x => (⟨x % 256, Nat.mod_lt x (by decide)⟩ : Fin 256)) ∘ Fin.val)
        = (id : Fin 256 → Fin 256) := by
      funext b
      apply Fin.ext
      exact Nat.mod_eq_of_lt b.isLt
    rw [hid, List.map_id, List.reverse_reverse]
  · intro l hl
    obtain ⟨b, _, rfl⟩ := List.mem_map.1 hl
    exact b.isLt
  · intro hne
    have hlast : (List.map Fin.val (0xFF :: chunk).reverse).getLast hne = 255 := by
      simp [List.reverse_cons, List.map_append]
      rfl
    rw [hlast]
    decide

/-- One block through `rsa_encrypt` and the body of the decrypt loop: the chunk comes
back, whatever the state of the stream. -/
theorem rsa_decrypt_block_encrypt (p q : Nat) (hp : p.Prime) (hq : q.Prime) (hpq : p ≠ q)
    (e d : Nat) (hed : (e * d) % ((p - 1) * (q - 1)) = 1) (chunk : List (Fin 256))
    (hj : chunk.length + 1 ≤ block_size ((p * q : Nat) : Int))
    (hlen : chunk.length < 2 ^ 64)
    (stray : List (Fin 256)) (touched : Bool) :
    rsa_decrypt_block (block_size ((p * q : Nat) : Int)) stray touched
      (rsa_encrypt (mpz_import (0xFF :: chunk)) (e : Int) ((p * q : Nat) : Int))
      ((p * q : Nat) : Int) (d : Int) = some chunk := by
  have hn : (0 : Int) < ((p * q : Nat) : Int) := by
    have := Nat.mul_pos hp.pos hq.pos
    exact_mod_cast this
  obtain ⟨hm0, hmn⟩ := mpz_import_marker_lt _ hn chunk hj
  obtain ⟨m, hm⟩ := Int.eq_ofNat_of_zero_le hm0.le
  have hrt : rsa_decrypt (rsa_encrypt (mpz_import (0xFF :: chunk)) (e : Int)
      ((p * q : Nat) : Int)) (d : Int) ((p * q : Nat) : Int) = mpz_import (0xFF :: chunk) := by
    unfold rsa_decrypt rsa_encrypt
    rw [hm] at hmn ⊢
    exact pow_mod_roundtrip p q hp hq hpq e d m hed (by exact_mod_cast hmn)
  have hcount : payload_count (chunk.length + 1) = chunk.length := by
    unfold payload_count
    have e1 : chunk.length + 1 + 2 ^ 64 - 1 = chunk.length + 2 ^ 64 := by omega
    rw [e1, Nat.add_mod_right, Nat.mod_eq_of_lt hlen]
  unfold rsa_decrypt_block
  rw [hrt, mpz_export_import_marker, List.length_cons, hcount, if_pos hj,
    if_pos (Nat.lt_succ_self _), List.drop_one, List.tail_cons, List.take_length]

/-- The value of `pow_mod` with a modulus above 1 and a non-negative exponent is reduced. -/
theorem pow_mod_range (b e n : Int) (he : 0 ≤ e) (hn : 1 < n) :
    0 ≤ pow_mod b e n ∧ pow_mod b e n < n := by
  lift e to Nat using he
  rw [pow_mod_eq b e n hn]
  exact ⟨Int.emod_nonneg _ (by omega), Int.emod_lt_of_pos _ (by omega)⟩

/-- A number is `2 ^ s * r` with `r` odd in one way only. -/
theorem two_pow_mul_odd_unique :
    ∀ (s s' r r' : Nat), 2 ^ s * r = 2 ^ s' * r' → r % 2 = 1 → r' % 2 = 1 → s = s' ∧ r = r' := by
  intro s
  induction s with
  | zero =>
    intro s' r r' h hr hr'
    rcases Nat.eq_zero_or_pos s' with h0 | h0
    · subst h0
      simp only [pow_zero, one_mul] at h
      exact ⟨rfl, h⟩
    · obtain ⟨t, rfl⟩ : ∃ t, s' = t + 1 := ⟨s' - 1, by omega⟩
      rw [pow_zero, one_mul, pow_succ] at h
      have : r = 2 * (2 ^ t * r') := by rw [h]; ring
      omega
  | succ s ih =>
    intro s' r r' h hr hr'
    rcases Nat.eq_zero_or_pos s' with h0 | h0
    · subst h0
      rw [pow_zero, one_mul, pow_succ] at h
      have : r' = 2 * (2 ^ s * r) := by rw [← h]; ring
      omega
    · obtain ⟨t, rfl⟩ : ∃ t, s' = t + 1 := ⟨s' - 1, by omega⟩
      have h2 : 2 ^ s * r = 2 ^ t * r' := by
        rw [pow_succ, pow_succ] at h
        have e1 : 2 ^ s * 2 * r = 2 * (2 ^ s * r) := by ring
        have e2 : 2 ^ t * 2 * r' = 2 * (2 ^ t * r') := by ring
        omega
      obtain ⟨h3, h4⟩ := ih t r r' h2 hr hr'
      exact ⟨by omega, h4⟩

/-- For an odd `n ≥ 5` with `n - 1 = 2 ^ s * r`, `r` odd, and fuel at least `n`, `is_prime`
runs its rounds with exactly these `s` and `r`. -/
theorem is_prime_eq_rounds (n : Nat) (hn : 5 ≤ n) (hodd : n % 2 = 1) (fuel : Nat)
    (hfuel : n ≤ fuel) (s r : Nat) (hfact : n - 1 = 2 ^ s * r) (hr : r % 2 = 1)
    (draws : Nat → Int) (iters : Nat) :
    is_prime fuel draws (n : Int) iters
      = some (witness_rounds draws (n : Int) (r : Int) ((n : Int) - 1) ((s : Int) - 1) iters 1) := by
  unfold is_prime
  rw [if_neg (by omega), if_neg (by omega)]
  obtain ⟨k', r', hloop, hN, hr'⟩ := halving_loop_spec ((n : Int) - 1) (by omega) fuel 0
    ((n : Int) - 1) (by simp) (by omega)
  rw [Nat.cast_zero, pow_zero] at hloop
  rw [hloop]
  have hr0 : 0 ≤ r' := by
    by_contra hneg
    push_neg at hneg
    have hpow : (0 : Int) ≤ 2 ^ k' := by positivity
    have := mul_nonpos_of_nonneg_of_nonpos hpow hneg.le
    omega
  lift r' to Nat using hr0
  have hfact' : n - 1 = 2 ^ k' * r' := by
    have : ((n - 1 : Nat) : Int) = ((2 ^ k' * r' : Nat) : Int) := by
      push_cast
      rw [← hN]
      omega
    exact_mod_cast this
  obtain ⟨h1, h2⟩ := two_pow_mul_odd_unique k' s r' r (hfact'.symm.trans hfact) (by omega) hr
  rw [h1, h2]

/-- A round of `is_prime` on a non-negative witness is passed exactly when the witness is
a strong probable-prime base in the sense of the specification. -/
theorem witness_round_spec (n : Nat) (hn : 2 < n) (s r : Nat) (hs : 1 ≤ s) (a : Int)
    (ha : 0 ≤ a) :
    witness_round (n : Int) (r : Int) ((n : Int) - 1) ((s : Int) - 1) a = true ↔
      strong_probable_prime_base (n : Int) s r a := by
  lift a to Nat using ha
  rw [witness_round_iff n hn s r hs a]
  unfold strong_probable_prime_base
  have hc : ∀ x : Nat, ((a : Int) ^ x % (n : Int)) = ((a ^ x % n : Nat) : Int) := by
    intro x
    push_cast
    rfl
  constructor
  · rintro (h | ⟨i, hi, h⟩)
    · left
      rw [hc, h]
      rfl
    · right
      refine ⟨i, hi, ?_⟩
      rw [hc, h]
      omega
  · rintro (h | ⟨i, hi, h⟩)
    · left
      rw [hc] at h
      exact_mod_cast h
    · right
      refine ⟨i, hi, ?_⟩
      rw [hc] at h
      omega

/-- The rounds of `is_prime` against the specification of a round: all rounds passed
means every witness drawn is a strong probable-prime base, and conversely. -/
theorem witness_rounds_spec (n : Nat) (hn : 2 < n) (s r : Nat) (hs : 1 ≤ s)
    (draws : Nat → Int) (iters : Nat) :
    (witness_rounds draws (n : Int) (r : Int) ((n : Int) - 1) ((s : Int) - 1) iters 1 = true →
        ∀ i, i + 1 < iters → 0 ≤ draws i →
          strong_probable_prime_base (n : Int) s r (draws i + 2)) ∧
      ((∀ i, i + 1 < iters →
          0 ≤ draws i ∧ strong_probable_prime_base (n : Int) s r (draws i + 2)) →
        witness_rounds draws (n : Int) (r : Int) ((n : Int) - 1) ((s : Int) - 1) iters 1
          = true) := by
  rw [witness_rounds_iff draws _ _ _ _ iters (iters - 1) 1 rfl]
  constructor
  · intro h i hi h0
    have := h (i + 1) (by omega) hi
    rw [Nat.add_sub_cancel] at this
    exact (witness_round_spec n hn s r hs _ (by omega)).1 this
  · intro h j hj1 hj2
    obtain ⟨h0, hspp⟩ := h (j - 1) (by omega)
    exact (witness_round_spec n hn s r hs _ (by omega)).2 hspp

/-- The two bit counts of the split of `rsa_make_pub` add up to `nbits`. -/
theorem rsa_split_sum (nbits rnd : Nat) (h4 : 4 ≤ nbits) (h64 : nbits < 2 ^ 64) :
    nbits / 2 ≠ 0 ∧ rsa_pbits nbits rnd + rsa_qbits nbits (rsa_pbits nbits rnd) = nbits := by
  obtain ⟨x, hx, hxe⟩ : ∃ x, x < nbits / 2 ∧ rnd % (nbits / 2) = x :=
    ⟨_, Nat.mod_lt _ (by omega), rfl⟩
  have hp : rsa_pbits nbits rnd = x + nbits / 4 := by
    unfold rsa_pbits
    rw [hxe]
    exact Nat.mod_eq_of_lt (by omega)
  have hq : rsa_qbits nbits (x + nbits / 4) = nbits - (x + nbits / 4) := by
    unfold rsa_qbits
    have e : nbits + 2 ^ 64 - (x + nbits / 4) = (nbits - (x + nbits / 4)) + 2 ^ 64 := by omega
    rw [e, Nat.add_mod_right]
    exact Nat.mod_eq_of_lt (by omega)
  rw [hp, hq]
  omega

/-- A product of a number of `a + 1` bits and a number of `b + 1` bits is at least
`2 ^ (a + b)` and has `a + b + 1` or `a + b + 2` bits. -/
theorem product_bit_length (a b : Nat) (p q : Int) (hp1 : 2 ^ a ≤ p) (hp2 : p < 2 ^ (a + 1))
    (hq1 : 2 ^ b ≤ q) (hq2 : q < 2 ^ (b + 1)) :
    2 ^ (a + b) ≤ p * q ∧
      (mpz_sizeinbase (p * q) = a + b + 1 ∨ mpz_sizeinbase (p * q) = a + b + 2) := by
  have ha : (0 : Int) < 2 ^ a := by positivity
  have hb : (0 : Int) < 2 ^ b := by positivity
  have hlo : (2 : Int) ^ (a + b) ≤ p * q := by
    rw [pow_add]
    exact mul_le_mul hp1 hq1 hb.le (by omega)
  have hhi : p * q < (2 : Int) ^ (a + b + 2) := by
    have e : (2 : Int) ^ (a + b + 2) = 2 ^ (a + 1) * 2 ^ (b + 1) := by ring
    rw [e]
    exact mul_lt_mul'' hp2 hq2 (by omega) (by omega)
  refine ⟨hlo, ?_⟩
  have hnn : 0 ≤ p * q := le_trans (by positivity) hlo
  obtain ⟨m, hm⟩ := Int.eq_ofNat_of_zero_le hnn
  rw [hm] at hlo hhi ⊢
  have hlo' : 2 ^ (a + b) ≤ m := by exact_mod_cast hlo
  have hhi' : m < 2 ^ (a + b + 2) := by exact_mod_cast hhi
  rcases Nat.lt_or_ge m (2 ^ (a + b + 1)) with h | h
  · exact Or.inl (block_size_eq m (a + b) hlo' h).1
  · exact Or.inr (block_size_eq m (a + b + 1) h hhi').1

/-! ## The claims -/

/-- C1: for distinct primes `p`, `q`, `n = p * q`, every `e ≥ 0` coprime to `(p-1)(q-1)`,
`d = rsa_make_priv(e, p, q)` and every message `0 ≤ m < n`, decrypting the encryption of
`m` gives `m`; for `p = 61`, `q = 53`, `e = 17` the private exponent is 2753,
`rsa_encrypt(65) = 2790` and `rsa_decrypt(2790) = 65`. -/
theorem rsa_decrypt_encrypt (p q : Nat) (hp : p.Prime) (hq : q.Prime) (hpq : p ≠ q)
    (e : Int) (he : 0 ≤ e) (hcop : Int.gcd e (((p : Int) - 1) * ((q : Int) - 1)) = 1)
    (m : Int) (hm0 : 0 ≤ m) (hmn : m < (p : Int) * (q : Int)) :
    rsa_decrypt (rsa_encrypt m e ((p : Int) * (q : Int))) (rsa_make_priv e (p : Int) (q : Int))
        ((p : Int) * (q : Int)) = m ∧
      (rsa_make_priv 17 61 53 = 2753 ∧ rsa_encrypt 65 17 3233 = 2790 ∧
        rsa_decrypt 2790 2753 3233 = 65) := by
  constructor
  · lift e to Nat using he
    lift m to Nat using hm0
    obtain ⟨d, hd, hed⟩ :=
      rsa_make_priv_nat p q hp hq (totient_gt_one p q hp hq hpq) e hcop
    rw [hd, ← Nat.cast_mul]
    rw [← Nat.cast_mul] at hmn
    unfold rsa_decrypt rsa_encrypt
    exact pow_mod_roundtrip p q hp hq hpq e d m hed (by exact_mod_cast hmn)
  · refine ⟨?_, ?_, ?_⟩
    · simp [rsa_make_priv, mod_inverse, mod_inverse_loop]
    · simp [rsa_encrypt, pow_mod, pow_mod_loop]
    · simp [rsa_decrypt, pow_mod, pow_mod_loop]

theorem rsa_decrypt_encrypt_witness :
    Nat.Prime 61 ∧ Nat.Prime 53 ∧
      rsa_decrypt (rsa_encrypt 65 17 (((61 : Nat) : Int) * ((53 : Nat) : Int)))
        (rsa_make_priv 17 ((61 : Nat) : Int) ((53 : Nat) : Int))
        (((61 : Nat) : Int) * ((53 : Nat) : Int)) = 65 :=
  ⟨by norm_num, by norm_num,
    (rsa_decrypt_encrypt 61 53 (by norm_num) (by norm_num) (by decide) 17 (by decide)
      (by decide) 65 (by decide) (by decide)).1⟩

/-- C2: for a valid key (distinct primes `p`, `q`, `n = p * q`, `e ≥ 0` coprime to
`(p-1)(q-1)`, `d = rsa_make_priv(e, p, q)`) and every message `0 ≤ m < n`, the signature
`rsa_sign(m, d, n)` is accepted by `rsa_verify`. -/
theorem rsa_verify_sign (p q : Nat) (hp : p.Prime) (hq : q.Prime) (hpq : p ≠ q)
    (e : Int) (he : 0 ≤ e) (hcop : Int.gcd e (((p : Int) - 1) * ((q : Int) - 1)) = 1)
    (m : Int) (hm0 : 0 ≤ m) (hmn : m < (p : Int) * (q : Int)) :
    rsa_verify m (rsa_sign m (rsa_make_priv e (p : Int) (q : Int)) ((p : Int) * (q : Int))) e
        ((p : Int) * (q : Int)) = true := by
  lift e to Nat using he
  lift m to Nat using hm0
  obtain ⟨d, hd, hed⟩ :=
    rsa_make_priv_nat p q hp hq (totient_gt_one p q hp hq hpq) e hcop
  rw [hd, ← Nat.cast_mul]
  rw [← Nat.cast_mul] at hmn
  rw [mul_comm] at hed
  unfold rsa_verify rsa_sign
  rw [if_pos (pow_mod_roundtrip p q hp hq hpq d e m hed (by exact_mod_cast hmn))]

theorem rsa_verify_sign_witness :
    Nat.Prime 61 ∧ Nat.Prime 53 ∧
      rsa_verify 65 (rsa_sign 65 (rsa_make_priv 17 ((61 : Nat) : Int) ((53 : Nat) : Int))
        (((61 : Nat) : Int) * ((53 : Nat) : Int))) 17
        (((61 : Nat) : Int) * ((53 : Nat) : Int)) = true :=
  ⟨by norm_num, by norm_num,
    rsa_verify_sign 61 53 (by norm_num) (by norm_num) (by decide) 17 (by decide)
      (by decide) 65 (by decide) (by decide)⟩

/-- C3: for a valid key and every message `0 ≤ m < n`, the value obtained from the
signature `s = rsa_sign(m, d, n)` by flipping the bit at any position `k` is rejected
by `rsa_verify`. -/
theorem rsa_verify_bit_flip (p q : Nat) (hp : p.Prime) (hq : q.Prime) (hpq : p ≠ q)
    (e : Int) (he : 0 ≤ e) (hcop : Int.gcd e (((p : Int) - 1) * ((q : Int) - 1)) = 1)
    (m : Int) (hm0 : 0 ≤ m) (hmn : m < (p : Int) * (q : Int)) (k : Nat) :
    rsa_verify m
        (((rsa_sign m (rsa_make_priv e (p : Int) (q : Int)) ((p : Int) * (q : Int))).toNat
          ^^^ 2 ^ k : Nat) : Int) e ((p : Int) * (q : Int)) = false := by
  lift e to Nat using he
  lift m to Nat using hm0
  obtain ⟨d, hd, hed⟩ :=
    rsa_make_priv_nat p q hp hq (totient_gt_one p q hp hq hpq) e hcop
  rw [hd, ← Nat.cast_mul]
  rw [← Nat.cast_mul] at hmn
  have hmn' : m < p * q := by exact_mod_cast hmn
  have hn : (1 : Int) < ((p * q : Nat) : Int) := by
    have : 1 < p * q := by
      have := hp.two_le
      have := hq.two_le
      nlinarith
    exact_mod_cast this
  have hs : rsa_sign (m : Int) (d : Int) ((p * q : Nat) : Int) = ((m ^ d % (p * q) : Nat) : Int) := by
    unfold rsa_sign
    rw [pow_mod_eq _ _ _ hn]; norm_cast
  rw [hs, Int.toNat_natCast]
  unfold rsa_verify
  rw [if_neg]
  rw [pow_mod_eq _ _ _ hn]
  norm_cast
  intro h
  have h0 : (m ^ d % (p * q) ^^^ 2 ^ k) ^ e ≡ m [MOD p * q] := by
    unfold Nat.ModEq
    rw [h, Nat.mod_eq_of_lt hmn']
  have h1 := rsa_core p q hp hq hpq (e * d) (m ^ d % (p * q) ^^^ 2 ^ k) hed
  have h2 : (m ^ d % (p * q) ^^^ 2 ^ k) ^ (e * d) ≡ m ^ d [MOD p * q] := by
    rw [pow_mul]
    exact h0.pow d
  exact not_modEq_xor_two_pow p q hp hq hpq (m ^ d % (p * q)) k
    (h1.symm.trans (h2.trans (Nat.mod_modEq _ _).symm))

theorem rsa_verify_bit_flip_witness :
    Nat.Prime 61 ∧ Nat.Prime 53 ∧
      rsa_verify 65
        (((rsa_sign 65 (rsa_make_priv 17 ((61 : Nat) : Int) ((53 : Nat) : Int))
            (((61 : Nat) : Int) * ((53 : Nat) : Int))).toNat ^^^ 2 ^ 3 : Nat) : Int) 17
        (((61 : Nat) : Int) * ((53 : Nat) : Int)) = false :=
  ⟨by norm_num, by norm_num,
    rsa_verify_bit_flip 61 53 (by norm_num) (by norm_num) (by decide) 17 (by decide)
      (by decide) 65 (by decide) (by decide) 3⟩

/-- C4, as stated, fails: `a = -1`, `n = 5` are coprime with `n > 1`, the loop of
`mod_inverse` ends with `r = -1`, `t = 1`, the value 1 is returned, and
`(-1 * 1) mod 5 = 4`. -/
theorem mod_inverse_negative_base_counterexample :
    (1 : Int) < 5 ∧ Int.gcd (-1) 5 = 1 ∧ mod_inverse_loop 5 (-1) 0 1 = (-1, 1) ∧
      mod_inverse (-1) 5 = 1 ∧ ((-1) * mod_inverse (-1) 5) % 5 = 4 := by
  refine ⟨by decide, by decide, ?_, ?_, ?_⟩
  · simp [mod_inverse_loop]
  · simp [mod_inverse, mod_inverse_loop]
  · simp [mod_inverse, mod_inverse_loop]

/-- C4 (amended): for every integer `a ≥ 0` and every `n > 1` with `gcd(a, n) = 1`, the
value `i` returned by `mod_inverse(a, n)` satisfies `(a * i) mod n = 1`. -/
theorem mod_inverse_mul_mod (a n : Int) (ha : 0 ≤ a) (hn : 1 < n) (hg : Int.gcd a n = 1) :
    (a * mod_inverse a n) % n = 1 :=
  (mod_inverse_spec a n ha hn hg).2

theorem mod_inverse_mul_mod_witness :
    (0 : Int) ≤ 3 ∧ (1 : Int) < 7 ∧ Int.gcd 3 7 = 1 ∧ (3 * mod_inverse 3 7) % 7 = 1 :=
  ⟨by decide, by decide, by decide,
    mod_inverse_mul_mod 3 7 (by decide) (by decide) (by decide)⟩

/-- C5, as stated, fails: `gcd(-2, 4) = 2 > 1`, but the loop of `mod_inverse` ends with
`r = -2`, which is not above 1, and the value 1 is returned instead of the sentinel. -/
theorem mod_inverse_sentinel_counterexample :
    1 < Int.gcd (-2) 4 ∧ mod_inverse_loop 4 (-2) 0 1 = (-2, 1) ∧ mod_inverse (-2) 4 = 1 := by
  refine ⟨by decide, ?_, ?_⟩
  · simp [mod_inverse_loop]
  · simp [mod_inverse, mod_inverse_loop]

/-- C5 (amended): for all integers `a ≥ 0` and `n` with `gcd(a, n) > 1`,
`mod_inverse(a, n)` returns the failure sentinel 0. -/
theorem mod_inverse_not_coprime (a n : Int) (ha : 0 ≤ a) (hg : 1 < Int.gcd a n) :
    mod_inverse a n = 0 :=
  mod_inverse_sentinel a n ha hg

theorem mod_inverse_not_coprime_witness :
    (0 : Int) ≤ 4 ∧ 1 < Int.gcd 4 6 ∧ mod_inverse 4 6 = 0 :=
  ⟨by decide, by decide, mod_inverse_not_coprime 4 6 (by decide) (by decide)⟩

/-- C6: for every natural number `a` (also `a ≥ n`) and every `n > 1`: when
`gcd(a, n) = 1` the value of `mod_inverse(a, n)` lies in `[1, n)`, and `mod_inverse(a, n)`
is 0 exactly when `a` has no inverse modulo `n`. -/
theorem mod_inverse_range (a : Nat) (n : Int) (hn : 1 < n) :
    (Int.gcd (a : Int) n = 1 → 1 ≤ mod_inverse (a : Int) n ∧ mod_inverse (a : Int) n < n) ∧
      (mod_inverse (a : Int) n = 0 ↔ ¬ ∃ x : Int, ((a : Int) * x) % n = 1) := by
  constructor
  · intro hg
    exact (mod_inverse_spec (a : Int) n (Int.natCast_nonneg a) hn hg).1
  · constructor
    · rintro h0 ⟨x, hx⟩
      have hg : Int.gcd (a : Int) n = 1 := by
        rw [← Int.isCoprime_iff_gcd_eq_one]
        refine ⟨x, -(((a : Int) * x) / n), ?_⟩
        have := Int.emod_add_ediv ((a : Int) * x) n
        rw [hx] at this
        linarith
      have := (mod_inverse_spec (a : Int) n (Int.natCast_nonneg a) hn hg).1.1
      omega
    · intro hno
      by_cases hg : Int.gcd (a : Int) n = 1
      · exact absurd ⟨_, (mod_inverse_spec (a : Int) n (Int.natCast_nonneg a) hn hg).2⟩ hno
      · have hpos : 0 < Int.gcd (a : Int) n := Int.gcd_pos_of_ne_zero_right _ (by omega)
        exact mod_inverse_sentinel (a : Int) n (Int.natCast_nonneg a) (by omega)

theorem mod_inverse_range_witness :
    (1 : Int) < 5 ∧ (1 ≤ mod_inverse ((7 : Nat) : Int) 5 ∧ mod_inverse ((7 : Nat) : Int) 5 < 5) :=
  ⟨by decide, (mod_inverse_range 7 5 (by decide)).1 (by decide)⟩

/-- C7: for every `base ≥ 0`, `exponent ≥ 0` and `modulus > 1`, `pow_mod` returns
`base ^ exponent mod modulus`; in particular `pow_mod(4, 13, 497) = 445`. -/
theorem pow_mod_correct (base exponent modulus : Int) (hb : 0 ≤ base) (he : 0 ≤ exponent)
    (hm : 1 < modulus) :
    pow_mod base exponent modulus = base ^ exponent.toNat % modulus ∧
      pow_mod 4 13 497 = 445 := by
  constructor
  · lift exponent to Nat using he
    rw [Int.toNat_natCast]
    exact pow_mod_eq base exponent modulus hm
  · simp [pow_mod, pow_mod_loop]

theorem pow_mod_correct_witness :
    (1 : Int) < 497 ∧ pow_mod 4 13 497 = 4 ^ (13 : Int).toNat % 497 :=
  ⟨by decide, (pow_mod_correct 4 13 497 (by decide) (by decide) (by decide)).1⟩

/-- C8: for all natural numbers `a`, `b` the function `gcd` (total: its loop is defined
by well-founded recursion on `|bb|`) returns the greatest common divisor of `a` and `b`;
`gcd(x, 0) = x` for every `x`, `gcd(48, 18) = 6` and `gcd(17, 5) = 1`. -/
theorem gcd_correct (a b : Nat) :
    gcd (a : Int) (b : Int) = (Nat.gcd a b : Int) ∧ (∀ x : Int, gcd x 0 = x) ∧
      gcd 48 18 = 6 ∧ gcd 17 5 = 1 := by
  refine ⟨gcd_loop_eq b a, ?_, ?_, ?_⟩
  · intro x
    unfold gcd
    rw [gcd_loop, dif_neg (by simp)]
  · simp [gcd, gcd_loop]
  · simp [gcd, gcd_loop]

/-- C9: for all primes `p`, `q` and every `e ≥ 0` with `gcd(e, (p-1)(q-1)) = 1` and
`(p-1)(q-1) > 1` (no bound on `e`), `d = rsa_make_priv(e, p, q)` satisfies
`(d * e) mod ((p-1)(q-1)) = 1`; for `p = 61`, `q = 53`, `e = 17` it is 2753. -/
theorem rsa_make_priv_correct (p q : Nat) (hp : p.Prime) (hq : q.Prime) (e : Int) (he : 0 ≤ e)
    (hcop : Int.gcd e (((p : Int) - 1) * ((q : Int) - 1)) = 1)
    (htot : 1 < ((p : Int) - 1) * ((q : Int) - 1)) :
    (rsa_make_priv e (p : Int) (q : Int) * e) % (((p : Int) - 1) * ((q : Int) - 1)) = 1 ∧
      rsa_make_priv 17 61 53 = 2753 := by
  constructor
  · unfold rsa_make_priv
    rw [mul_comm]
    exact (mod_inverse_spec e _ he htot hcop).2
  · simp [rsa_make_priv, mod_inverse, mod_inverse_loop]

theorem rsa_make_priv_correct_witness :
    Nat.Prime 61 ∧ Nat.Prime 53 ∧
      (rsa_make_priv 17 ((61 : Nat) : Int) ((53 : Nat) : Int) * 17) %
        ((((61 : Nat) : Int) - 1) * (((53 : Nat) : Int) - 1)) = 1 :=
  ⟨by norm_num, by norm_num,
    (rsa_make_priv_correct 61 53 (by norm_num) (by norm_num) 17 (by decide) (by decide)
      (by decide)).1⟩

/-- C10: `is_prime` never gives a false negative. For every prime `n`, every iteration
count and every stream of draws (each witness `draws i + 2` in `[2, n-2]`; witnesses are
only drawn when `n > 3`), `is_prime` returns true as soon as the fuel of the halving loop
is at least `n`; in particular it returns true for 2, 3, 5, 97 and 7919. -/
theorem is_prime_no_false_negative (n : Nat) (hp : n.Prime) (fuel : Nat) (hfuel : n ≤ fuel)
    (draws : Nat → Int) (hdraws : 3 < n → ∀ i, 0 ≤ draws i ∧ draws i < (n : Int) - 3)
    (iters : Nat) :
    is_prime fuel draws (n : Int) iters = some true ∧
      ∀ k ∈ [2, 3, 5, 97, 7919], ∀ (fuel' : Nat) (draws' : Nat → Int) (iters' : Nat),
        k ≤ fuel' → (3 < k → ∀ i, 0 ≤ draws' i ∧ draws' i < (k : Int) - 3) →
        is_prime fuel' draws' (k : Int) iters' = some true := by
  refine ⟨is_prime_of_prime n hp fuel hfuel draws hdraws iters, ?_⟩
  intro k hk fuel' draws' iters' hf hd
  have hkp : k.Prime := by
    simp only [List.mem_cons, List.mem_singleton, List.not_mem_nil, or_false] at hk
    rcases hk with rfl | rfl | rfl | rfl | rfl <;> norm_num
  exact is_prime_of_prime k hkp fuel' hf draws' hd iters'

theorem is_prime_no_false_negative_witness :
    Nat.Prime 97 ∧ is_prime 97 (fun _ => 5) ((97 : Nat) : Int) 50 = some true :=
  ⟨by norm_num,
    (is_prime_no_false_negative 97 (by norm_num) 97 (le_refl 97) (fun _ => 5)
      (fun _ _ => ⟨show (0 : Int) ≤ 5 by decide, show (5 : Int) < ((97 : Nat) : Int) - 3 by decide⟩)
      50).1⟩

/-- C15: for every `nbits ≥ 4` (a `uint64_t`) and every value `rnd` returned by `random()`,
the split of `rsa_make_pub` satisfies `nbits/4 ≤ pbits < nbits/4 + nbits/2`, the
subtraction `qbits = nbits - pbits` does not wrap, `pbits + qbits = nbits`, and both parts
are at least 1. -/
theorem rsa_bit_split (nbits rnd : Nat) (h4 : 4 ≤ nbits) (h64 : nbits < 2 ^ 64) :
    nbits / 4 ≤ rsa_pbits nbits rnd ∧ rsa_pbits nbits rnd < nbits / 4 + nbits / 2 ∧
      rsa_pbits nbits rnd ≤ nbits ∧
      rsa_qbits nbits (rsa_pbits nbits rnd) = nbits - rsa_pbits nbits rnd ∧
      rsa_pbits nbits rnd + rsa_qbits nbits (rsa_pbits nbits rnd) = nbits ∧
      1 ≤ rsa_pbits nbits rnd ∧ 1 ≤ rsa_qbits nbits (rsa_pbits nbits rnd) := by
  obtain ⟨x, hx, hxe⟩ : ∃ x, x < nbits / 2 ∧ rnd % (nbits / 2) = x :=
    ⟨_, Nat.mod_lt _ (by omega), rfl⟩
  have hp : rsa_pbits nbits rnd = x + nbits / 4 := by
    unfold rsa_pbits
    rw [hxe]
    exact Nat.mod_eq_of_lt (by omega)
  have hq : rsa_qbits nbits (x + nbits / 4) = nbits - (x + nbits / 4) := by
    unfold rsa_qbits
    have e : nbits + 2 ^ 64 - (x + nbits / 4) = (nbits - (x + nbits / 4)) + 2 ^ 64 := by omega
    rw [e, Nat.add_mod_right]
    exact Nat.mod_eq_of_lt (by omega)
  rw [hp, hq]
  omega

theorem rsa_bit_split_witness :
    (4 : Nat) ≤ 256 ∧ 64 ≤ rsa_pbits 256 1000 ∧ rsa_pbits 256 1000 < 64 + 128 ∧
      rsa_pbits 256 1000 + rsa_qbits 256 (rsa_pbits 256 1000) = 256 :=
  ⟨by decide, (rsa_bit_split 256 1000 (by decide) (by norm_num)).1,
    (rsa_bit_split 256 1000 (by decide) (by norm_num)).2.1,
    (rsa_bit_split 256 1000 (by decide) (by norm_num)).2.2.2.2.1⟩

/-- C16: for every modulus `n > 0` with block size `k = (bitlen(n) - 1) / 8` and every
chunk of `j` bytes with `j + 1 ≤ k`, the integer imported, most significant byte first,
from `0xFF` followed by the chunk is positive and strictly less than `n`. -/
theorem block_value_lt_modulus (n : Int) (hn : 0 < n) (chunk : List (Fin 256))
    (hj : chunk.length + 1 ≤ block_size n) :
    0 < mpz_import (0xFF :: chunk) ∧ mpz_import (0xFF :: chunk) < n :=
  mpz_import_marker_lt n hn chunk hj

theorem block_value_lt_modulus_witness :
    (0 : Int) < 65536 ∧
      (0 < mpz_import (0xFF :: [7]) ∧ mpz_import (0xFF :: [7]) < ((65536 : Nat) : Int)) :=
  ⟨by decide,
    block_value_lt_modulus ((65536 : Nat) : Int) (by decide) [7]
      (by rw [(block_size_eq 65536 16 (by norm_num) (by norm_num)).2]; decide)⟩

/-- C18: for every modulus `n` with block size `k ≥ 2` and every input of `L` bytes,
`rsa_encrypt_file` prints exactly `ceil(L / (k-1))` lines; line `i` is
`pow_mod(m_i, e, n)` for the integer `m_i` of `0xFF` followed by the `i`-th group of
`k - 1` input bytes; no group is empty and only the last may be shorter; an empty input
gives no line. -/
theorem rsa_encrypt_file_lines (n e : Int) (input : List (Fin 256)) (hk : 2 ≤ block_size n) :
    ∃ out : List Int, rsa_encrypt_file input n e = some out ∧
      out.length = (input.length + (block_size n - 2)) / (block_size n - 1) ∧
      (∀ i, i < out.length →
        out[i]? = some (pow_mod (mpz_import
            (0xFF :: (input.drop (i * (block_size n - 1))).take (block_size n - 1))) e n) ∧
          0 < ((input.drop (i * (block_size n - 1))).take (block_size n - 1)).length ∧
          (i + 1 < out.length →
            ((input.drop (i * (block_size n - 1))).take (block_size n - 1)).length
              = block_size n - 1)) ∧
      (input = [] → out = []) := by
  have hlen := rsa_encrypt_loop_length (block_size n) hk n e input.length input rfl
  refine ⟨rsa_encrypt_loop (block_size n) n e input, ?_, hlen, ?_, ?_⟩
  · unfold rsa_encrypt_file
    rw [if_neg (by omega)]
  · intro i hi
    have hb := chunk_index_bounds input.length (block_size n) i hk (by rw [← hlen]; exact hi)
    refine ⟨?_, ?_, ?_⟩
    · have := rsa_encrypt_loop_get (block_size n) n e i input hi
      unfold rsa_encrypt at this
      exact this
    · rw [List.length_take, List.length_drop]
      omega
    · intro hi1
      have := hb.2 (by rw [← hlen]; exact hi1)
      have e1 : (i + 1) * (block_size n - 1) = i * (block_size n - 1) + (block_size n - 1) := by
        ring
      rw [List.length_take, List.length_drop]
      omega
  · intro hnil
    rw [hnil] at hlen
    rw [hnil]
    apply List.eq_nil_of_length_eq_zero
    rw [hlen, List.length_nil, Nat.zero_add]
    exact Nat.div_eq_of_lt (by omega)

theorem rsa_encrypt_file_lines_witness :
    ∃ out : List Int, rsa_encrypt_file [1, 0, 2] ((65536 : Nat) : Int) 17 = some out ∧
      out.length = 3 := by
  have hb : block_size ((65536 : Nat) : Int) = 2 :=
    (block_size_eq 65536 16 (by norm_num) (by norm_num)).2
  obtain ⟨out, h1, h2, _⟩ := rsa_encrypt_file_lines ((65536 : Nat) : Int) 17 [1, 0, 2]
    (by rw [hb])
  rw [hb] at h2
  exact ⟨out, h1, h2⟩

/-- C19 at its failing input: the ciphertext 0 decrypts to `m = 0` (here with `n = 3233`,
`d = 2753`), `mpz_export` stores no byte and sets `j = 0`, and the count `j - 1` passed to
`fwrite` is `2 ^ 64 - 1`, not zero. -/
theorem payload_count_of_zero :
    rsa_decrypt 0 2753 3233 = 0 ∧ mpz_export (rsa_decrypt 0 2753 3233) = [] ∧
      payload_count (mpz_export (rsa_decrypt 0 2753 3233)).length = 2 ^ 64 - 1 := by
  have h0 : rsa_decrypt 0 2753 3233 = 0 := by simp [rsa_decrypt, pow_mod, pow_mod_loop]
  have h1 : mpz_export 0 = [] := by simp [mpz_export]
  rw [h0, h1]
  exact ⟨rfl, rfl, by decide⟩

/-- C20: when `rsa_verify(name, s, e, n)` is false the `encrypt` program does not call
`rsa_encrypt_file`, writes no ciphertext and reports the failure on `stderr`; ciphertext
is written only if the signature verifies. -/
theorem encrypt_main_refuses (name s e n : Int) (input : List (Fin 256)) :
    (rsa_verify name s e n = false →
      (encrypt_main name s e n input).encrypt_file_calls = 0 ∧
        (encrypt_main name s e n input).ciphertext = some [] ∧
        (encrypt_main name s e n input).stderr = ["Error: invalid key.\n"]) ∧
      (∀ c out, (encrypt_main name s e n input).ciphertext = some (c :: out) →
        rsa_verify name s e n = true) := by
  constructor
  · intro hv
    unfold encrypt_main
    rw [hv]
    exact ⟨rfl, rfl, rfl⟩
  · intro c out h
    unfold encrypt_main at h
    by_cases hv : rsa_verify name s e n = true
    · exact hv
    · rw [if_neg hv] at h
      simp at h

theorem encrypt_main_refuses_witness :
    rsa_verify 5 0 17 3233 = false ∧
      (encrypt_main 5 0 17 3233 [1, 2, 3]).encrypt_file_calls = 0 ∧
      (encrypt_main 5 0 17 3233 [1, 2, 3]).ciphertext = some [] ∧
      (encrypt_main 5 0 17 3233 [1, 2, 3]).stderr = ["Error: invalid key.\n"] :=
  have hv : rsa_verify 5 0 17 3233 = false := by simp [rsa_verify, pow_mod, pow_mod_loop]
  ⟨hv, (encrypt_main_refuses 5 0 17 3233 [1, 2, 3]).1 hv⟩

/-- C12, as stated, fails: with `bits = 1` and the drawn pattern 1 (a 1-bit value),
`make_prime` builds the candidate `1 + 2 ^ 1 = 3`, `is_prime` accepts it, and 3 is not
below `2 ^ 1`. -/
theorem make_prime_bits_counterexample :
    ((0 : Int) ≤ 1 ∧ (1 : Int) < 2 ^ 1) ∧
      make_prime 2 (fun _ => 1) (fun _ _ => 0) 1 50 = some 3 ∧ ¬ ((3 : Int) < 2 ^ 1) := by
  refine ⟨⟨by decide, by decide⟩, ?_, by decide⟩
  simp [make_prime, make_prime_loop, make_prime_candidate, is_prime]

/-- C12 (amended): for every `bits ≥ 1` and every random draw, each candidate
`make_prime(bits, iters)` builds (the `bits`-bit pattern plus `2 ^ bits`), and therefore
the value `p` it returns, has exactly `bits + 1` significant bits:
`2 ^ bits ≤ p < 2 ^ (bits + 1)`. -/
theorem make_prime_bit_length (fuel : Nat) (cand : Nat → Int) (wit : Nat → Nat → Int)
    (bits iters : Nat) (hbits : 1 ≤ bits) (hcand : ∀ k, 0 ≤ cand k ∧ cand k < 2 ^ bits) :
    (∀ k, 2 ^ bits ≤ make_prime_candidate bits (cand k) ∧
        make_prime_candidate bits (cand k) < 2 ^ (bits + 1) ∧
        mpz_sizeinbase (make_prime_candidate bits (cand k)) = bits + 1) ∧
      (∀ p, make_prime fuel cand wit bits iters = some p →
        2 ^ bits ≤ p ∧ p < 2 ^ (bits + 1) ∧ mpz_sizeinbase p = bits + 1) := by
  have hall := fun k => make_prime_candidate_range bits (cand k) (hcand k).1 (hcand k).2
  refine ⟨hall, ?_⟩
  intro p hp
  obtain ⟨_, j, rfl⟩ := make_prime_some fuel cand wit bits iters p hp
  exact hall j

theorem make_prime_bit_length_witness :
    make_prime 2 (fun _ => 1) (fun _ _ => 0) 1 50 = some 3 ∧
      ((2 : Int) ^ 1 ≤ 3 ∧ (3 : Int) < 2 ^ (1 + 1) ∧ mpz_sizeinbase 3 = 1 + 1) :=
  have h : make_prime 2 (fun _ => 1) (fun _ _ => 0) 1 50 = some 3 := by
    simp [make_prime, make_prime_loop, make_prime_candidate, is_prime]
  ⟨h, (make_prime_bit_length 2 (fun _ => 1) (fun _ _ => 0) 1 50 (le_refl 1)
    (fun _ => ⟨show (0 : Int) ≤ 1 by decide, show (1 : Int) < 2 ^ 1 by decide⟩)).2 3 h⟩

/-- C13: whenever `rsa_make_pub(nbits, iters)` returns `(p, q, n, e)`, `n = p * q`, the bit
length of `n` is at least `nbits`, and `p`, `q` are the values returned by the two
`make_prime` calls of the last cycle, each accepted by a call of `is_prime`. -/
theorem rsa_make_pub_modulus (fuel : Nat) (D : PubDraws) (nbits iters : Nat) (p q n e : Int)
    (h : rsa_make_pub fuel D nbits iters = some (p, q, n, e)) :
    n = p * q ∧ nbits ≤ mpz_sizeinbase n ∧
      ∃ c,
        (make_prime fuel (D.p_cand c) (D.p_wit c) (rsa_pbits nbits (D.split c)) iters = some p ∧
          ∃ k, is_prime fuel (D.p_wit c k) p iters = some true) ∧
        (make_prime fuel (D.q_cand c) (D.q_wit c)
            (rsa_qbits nbits (rsa_pbits nbits (D.split c))) iters = some q ∧
          ∃ k, is_prime fuel (D.q_wit c k) q iters = some true) := by
  obtain ⟨⟨c, _, hmp, hmq, hn, hsz⟩, _⟩ := rsa_make_pub_some fuel D nbits iters p q n e h
  exact ⟨hn, hsz, c, ⟨hmp, (make_prime_some _ _ _ _ _ _ hmp).1⟩,
    ⟨hmq, (make_prime_some _ _ _ _ _ _ hmq).1⟩⟩

/-- C14: whenever `rsa_make_pub(nbits, iters)` returns `(p, q, n, e)` (the random sources
delivering values in their ranges), the mathematical gcd of `e` and `(p-1)(q-1)` is 1 and
`0 < e < 2 ^ nbits`. -/
theorem rsa_make_pub_exponent (fuel : Nat) (D : PubDraws) (nbits iters : Nat)
    (p q n e : Int) (h64 : nbits < 2 ^ 64)
    (hp_rng : ∀ c k, 0 ≤ D.p_cand c k ∧ D.p_cand c k < 2 ^ rsa_pbits nbits (D.split c))
    (hq_rng : ∀ c k, 0 ≤ D.q_cand c k ∧
      D.q_cand c k < 2 ^ rsa_qbits nbits (rsa_pbits nbits (D.split c)))
    (he_rng : ∀ k, 0 ≤ D.e_cand k ∧ D.e_cand k < 2 ^ nbits)
    (h : rsa_make_pub fuel D nbits iters = some (p, q, n, e)) :
    Int.gcd e ((p - 1) * (q - 1)) = 1 ∧ 0 < e ∧ e < 2 ^ nbits := by
  obtain ⟨⟨c, hmax, hmp, hmq, _, _⟩, ⟨k, hek, hg⟩⟩ :=
    rsa_make_pub_some fuel D nbits iters p q n e h
  obtain ⟨⟨kp, hip⟩, ⟨jp, hpc⟩⟩ := make_prime_some _ _ _ _ _ _ hmp
  obtain ⟨⟨kq, hiq⟩, ⟨jq, hqc⟩⟩ := make_prime_some _ _ _ _ _ _ hmq
  have hp2 : 2 ≤ p := is_prime_true_ge_two _ _ _ _ hip
  have hq2 : 2 ≤ q := is_prime_true_ge_two _ _ _ _ hiq
  have he0 : 0 ≤ e := by rw [hek]; exact (he_rng k).1
  have helt : e < 2 ^ nbits := by rw [hek]; exact (he_rng k).2
  have htot : 0 ≤ (p - 1) * (q - 1) := mul_nonneg (by omega) (by omega)
  have hgcd : Int.gcd e ((p - 1) * (q - 1)) = 1 := by
    rw [gcd_eq_int_gcd e _ he0 htot] at hg
    exact_mod_cast hg
  refine ⟨hgcd, ?_, helt⟩
  rcases lt_or_eq_of_le he0 with hpos | hzero
  · exact hpos
  · exfalso
    rw [← hzero, Int.gcd_zero_left] at hgcd
    have htot1 : (p - 1) * (q - 1) = 1 := by omega
    have hpe : p = 2 := by
      by_contra hne
      have h3 : 2 ≤ p - 1 := by omega
      have := mul_le_mul h3 (show (1 : Int) ≤ q - 1 by omega) (by decide) (by omega)
      omega
    have hqe : q = 2 := by
      rw [hpe] at htot1
      omega
    have hpb := make_prime_candidate_eq_two _ _ (hp_rng c jp).1 (hp_rng c jp).2
      (hpc.symm.trans hpe)
    have hqb := make_prime_candidate_eq_two _ _ (hq_rng c jq).1 (hq_rng c jq).2
      (hqc.symm.trans hqe)
    rw [hpb] at hqb
    have hn2 : nbits = 2 := by
      unfold rsa_qbits at hqb
      have e1 : nbits + 2 ^ 64 - 1 = (nbits - 1) + 2 ^ 64 := by omega
      rw [e1, Nat.add_mod_right, Nat.mod_eq_of_lt (by omega)] at hqb
      omega
    rw [hn2] at hpb
    unfold rsa_pbits at hpb
    norm_num [Nat.mod_one] at hpb

theorem rsa_make_pub_modulus_witness :
    rsa_make_pub 10 sample_draws 4 3 = some (3, 11, 33, 3) ∧
      ((33 : Int) = 3 * 11 ∧ 4 ≤ mpz_sizeinbase 33) :=
  ⟨rsa_make_pub_sample,
    (rsa_make_pub_modulus 10 sample_draws 4 3 3 11 33 3 rsa_make_pub_sample).1,
    (rsa_make_pub_modulus 10 sample_draws 4 3 3 11 33 3 rsa_make_pub_sample).2.1⟩

theorem rsa_make_pub_exponent_witness :
    rsa_make_pub 10 sample_draws 4 3 = some (3, 11, 33, 3) ∧
      (Int.gcd 3 ((3 - 1) * (11 - 1)) = 1 ∧ (0 : Int) < 3 ∧ (3 : Int) < 2 ^ 4) :=
  ⟨rsa_make_pub_sample,
    rsa_make_pub_exponent 10 sample_draws 4 3 3 11 33 3 (by norm_num)
      (fun _ _ => ⟨show (0 : Int) ≤ 1 by decide, show (1 : Int) < 2 ^ rsa_pbits 4 0 by decide⟩)
      (fun _ _ => ⟨show (0 : Int) ≤ 3 by decide,
        show (3 : Int) < 2 ^ rsa_qbits 4 (rsa_pbits 4 0) by decide⟩)
      (fun _ => ⟨show (0 : Int) ≤ 3 by decide, show (3 : Int) < 2 ^ 4 by decide⟩)
      rsa_make_pub_sample⟩

/-- C11, as stated, fails for 561: when every witness drawn is 50 (the draw 48, inside
`[0, 561 - 3)`), a strong liar of 561, `is_prime(561, 50)` returns true. -/
theorem is_prime_561_counterexample :
    ((0 : Int) ≤ 48 ∧ (48 : Int) < 561 - 3) ∧ is_prime 5 (fun _ => 48) 561 50 = some true := by
  refine ⟨⟨by decide, by decide⟩, ?_⟩
  refine (is_prime_561_iff 5 (le_refl 5) (fun _ => 48) 50
    (fun _ => ⟨show (0 : Int) ≤ 48 by decide, show (48 : Int) < 561 - 3 by decide⟩)).1.2 ?_
  intro i _
  show (48 : Int) + 2 ∈ ([50, 101, 103, 256, 305, 458, 460, 511] : List Int)
  decide

/-- C11 (amended): for every `iters ≥ 50` and every sequence of witnesses in `[2, n-2]`,
`is_prime(n, iters)` returns false for `n` in `{1, 4, 9, 100}`; for `n = 561` it returns
false exactly when one of the `iters - 1` witnesses drawn is outside
`{50, 101, 103, 256, 305, 458, 460, 511}`, and true when all of them lie in that set. -/
theorem is_prime_composites (fuel iters : Nat) (hfuel : 5 ≤ fuel) (hiters : 50 ≤ iters)
    (draws : Nat → Int) :
    is_prime fuel draws 1 iters = some false ∧ is_prime fuel draws 4 iters = some false ∧
      is_prime fuel draws 100 iters = some false ∧
      ((∀ i, 0 ≤ draws i ∧ draws i < 9 - 3) → is_prime fuel draws 9 iters = some false) ∧
      ((∀ i, 0 ≤ draws i ∧ draws i < 561 - 3) →
        (is_prime fuel draws 561 iters = some false ↔
          ∃ i, i + 1 < iters ∧
            draws i + 2 ∉ ([50, 101, 103, 256, 305, 458, 460, 511] : List Int)) ∧
        (is_prime fuel draws 561 iters = some true ↔
          ∀ i, i + 1 < iters →
            draws i + 2 ∈ ([50, 101, 103, 256, 305, 458, 460, 511] : List Int))) := by
  refine ⟨?_, ?_, ?_, ?_, ?_⟩
  · simp [is_prime]
  · simp [is_prime]
  · simp [is_prime]
  · intro hr
    rw [is_prime_nine fuel (by omega), Option.some.injEq, ← Bool.not_eq_true,
      witness_rounds_iff draws _ _ _ _ iters (iters - 1) 1 rfl]
    intro h
    have h1 := h 1 (le_refl 1) (by omega)
    rw [witness_round_nine _ (hr (1 - 1)).1 (hr (1 - 1)).2] at h1
    exact absurd h1 (by decide)
  · intro hr
    exact ⟨(is_prime_561_iff fuel hfuel draws iters hr).2,
      (is_prime_561_iff fuel hfuel draws iters hr).1⟩

theorem is_prime_composites_witness :
    is_prime 5 (fun _ => 0) 9 50 = some false ∧ is_prime 5 (fun _ => 0) 561 50 = some false :=
  ⟨(is_prime_composites 5 50 (le_refl 5) (le_refl 50) (fun _ => 0)).2.2.2.1
      (fun _ => ⟨show (0 : Int) ≤ 0 by decide, show (0 : Int) < 9 - 3 by decide⟩),
    ((is_prime_composites 5 50 (le_refl 5) (le_refl 50) (fun _ => 0)).2.2.2.2
      (fun _ => ⟨show (0 : Int) ≤ 0 by decide, show (0 : Int) < 561 - 3 by decide⟩)).1.2
      ⟨0, by decide,
        show (0 : Int) + 2 ∉ ([50, 101, 103, 256, 305, 458, 460, 511] : List Int) by decide⟩⟩

/-- C21: for every odd `n ≥ 5` with `n - 1 = 2 ^ s * r`, `r` odd, and every sequence of
draws, `is_prime(n, iters)` returns true if and only if each of the `iters - 1` witnesses
`draws 0 + 2, ..., draws (iters - 2) + 2` is a strong probable-prime base for `n`, and
false otherwise; once a witness fails, the draws after it do not matter. -/
theorem is_prime_iff_strong_probable_prime (n : Nat) (hn : 5 ≤ n) (hodd : n % 2 = 1)
    (s r : Nat) (hfact : n - 1 = 2 ^ s * r) (hr : r % 2 = 1) (fuel : Nat) (hfuel : n ≤ fuel)
    (draws : Nat → Int) (hdraws : ∀ i, 0 ≤ draws i) (iters : Nat) :
    (is_prime fuel draws (n : Int) iters = some true ↔
        ∀ i, i + 1 < iters → strong_probable_prime_base (n : Int) s r (draws i + 2)) ∧
      (is_prime fuel draws (n : Int) iters = some false ↔
        ∃ i, i + 1 < iters ∧ ¬ strong_probable_prime_base (n : Int) s r (draws i + 2)) ∧
      (∀ i, i + 1 < iters → ¬ strong_probable_prime_base (n : Int) s r (draws i + 2) →
        ∀ draws' : Nat → Int, (∀ j, j ≤ i → draws' j = draws j) →
          is_prime fuel draws' (n : Int) iters = some false) := by
  have hs : 1 ≤ s := by
    rcases Nat.eq_zero_or_pos s with h0 | h0
    · rw [h0, pow_zero, one_mul] at hfact
      omega
    · exact h0
  have hspec := witness_rounds_spec n (by omega) s r hs draws iters
  have htrue : witness_rounds draws (n : Int) (r : Int) ((n : Int) - 1) ((s : Int) - 1) iters 1
      = true ↔
      ∀ i, i + 1 < iters → strong_probable_prime_base (n : Int) s r (draws i + 2) :=
    ⟨fun h i hi => hspec.1 h i hi (hdraws i), fun h => hspec.2 fun i hi => ⟨hdraws i, h i hi⟩⟩
  refine ⟨?_, ?_, ?_⟩
  · rw [is_prime_eq_rounds n hn hodd fuel hfuel s r hfact hr, Option.some.injEq, htrue]
  · rw [is_prime_eq_rounds n hn hodd fuel hfuel s r hfact hr, Option.some.injEq,
      ← Bool.not_eq_true, htrue]
    push_neg
    rfl
  · intro i hi hfail draws' hagree
    rw [is_prime_eq_rounds n hn hodd fuel hfuel s r hfact hr, Option.some.injEq,
      ← Bool.not_eq_true]
    intro h
    have := (witness_rounds_spec n (by omega) s r hs draws' iters).1 h i hi
      (by rw [hagree i (le_refl i)]; exact hdraws i)
    rw [hagree i (le_refl i)] at this
    exact hfail this

theorem is_prime_iff_strong_probable_prime_witness :
    is_prime 9 (fun _ => 0) ((9 : Nat) : Int) 2 = some false ↔
      ∃ i, i + 1 < 2 ∧ ¬ strong_probable_prime_base ((9 : Nat) : Int) 3 1 ((fun _ => 0) i + 2) :=
  (is_prime_iff_strong_probable_prime 9 (by decide) (by decide) 3 1 (by decide) (by decide)
    9 (le_refl 9) (fun _ => 0) (fun _ => le_refl 0) 2).2.1

/-- C22: for a valid key with block size `k ≥ 2` and every chunk of `j` bytes,
`1 ≤ j ≤ k - 1` (zero bytes included), the body of the loop of `rsa_decrypt_file` run on
the ciphertext of the block `0xFF, chunk` puts exactly the `j` bytes of the chunk on the
output, whatever the state of the stream: decrypting gives back the integer of the block,
its export has `j + 1` bytes, the first being `0xFF`, and dropping that byte leaves the
chunk. The count `j` is a `uint64_t`. -/
theorem rsa_block_roundtrip (p q : Nat) (hp : p.Prime) (hq : q.Prime) (hpq : p ≠ q)
    (e : Int) (he : 0 ≤ e) (hcop : Int.gcd e (((p : Int) - 1) * ((q : Int) - 1)) = 1)
    (hk : 2 ≤ block_size ((p * q : Nat) : Int)) (chunk : List (Fin 256))
    (h1 : 1 ≤ chunk.length) (h2 : chunk.length ≤ block_size ((p * q : Nat) : Int) - 1)
    (h64 : chunk.length < 2 ^ 64) (stray : List (Fin 256)) (touched : Bool) :
    rsa_decrypt_block (block_size ((p * q : Nat) : Int)) stray touched
        (rsa_encrypt (mpz_import (0xFF :: chunk)) e ((p * q : Nat) : Int))
        ((p * q : Nat) : Int) (rsa_make_priv e (p : Int) (q : Int)) = some chunk ∧
      mpz_export (rsa_decrypt (rsa_encrypt (mpz_import (0xFF :: chunk)) e ((p * q : Nat) : Int))
        (rsa_make_priv e (p : Int) (q : Int)) ((p * q : Nat) : Int)) = 0xFF :: chunk ∧
      (mpz_export (rsa_decrypt (rsa_encrypt (mpz_import (0xFF :: chunk)) e
        ((p * q : Nat) : Int)) (rsa_make_priv e (p : Int) (q : Int))
        ((p * q : Nat) : Int))).length = chunk.length + 1 ∧
      (mpz_export (rsa_decrypt (rsa_encrypt (mpz_import (0xFF :: chunk)) e
        ((p * q : Nat) : Int)) (rsa_make_priv e (p : Int) (q : Int))
        ((p * q : Nat) : Int))).drop 1 = chunk := by
  lift e to Nat using he
  obtain ⟨d, hd, hed⟩ :=
    rsa_make_priv_nat p q hp hq (totient_gt_one p q hp hq hpq) e hcop
  have hn : (0 : Int) < ((p * q : Nat) : Int) := by
    have := Nat.mul_pos hp.pos hq.pos
    exact_mod_cast this
  obtain ⟨hm0, hmn⟩ := mpz_import_marker_lt _ hn chunk (by omega)
  obtain ⟨m, hm⟩ := Int.eq_ofNat_of_zero_le hm0.le
  have hrt : rsa_decrypt (rsa_encrypt (mpz_import (0xFF :: chunk)) (e : Int)
      ((p * q : Nat) : Int)) (rsa_make_priv (e : Int) (p : Int) (q : Int))
      ((p * q : Nat) : Int) = mpz_import (0xFF :: chunk) := by
    unfold rsa_decrypt rsa_encrypt
    rw [hd]
    rw [hm] at hmn ⊢
    exact pow_mod_roundtrip p q hp hq hpq e d m hed (by exact_mod_cast hmn)
  refine ⟨?_, ?_⟩
  · rw [hd]
    exact rsa_decrypt_block_encrypt p q hp hq hpq e d hed chunk (by omega) h64 stray touched
  · rw [hrt, mpz_export_import_marker]
    exact ⟨rfl, rfl, rfl⟩

theorem rsa_block_roundtrip_witness :
    Nat.Prime 257 ∧ Nat.Prime 263 ∧
      rsa_decrypt_block 2 [7] true
        (rsa_encrypt (mpz_import (0xFF :: [0])) 3 ((257 * 263 : Nat) : Int))
        ((257 * 263 : Nat) : Int) (rsa_make_priv 3 ((257 : Nat) : Int) ((263 : Nat) : Int))
        = some [0] ∧
      mpz_export (rsa_decrypt (rsa_encrypt (mpz_import (0xFF :: [0])) 3
        ((257 * 263 : Nat) : Int)) (rsa_make_priv 3 ((257 : Nat) : Int) ((263 : Nat) : Int))
        ((257 * 263 : Nat) : Int)) = 0xFF :: [0] := by
  have hb : block_size ((257 * 263 : Nat) : Int) = 2 :=
    (block_size_eq (257 * 263) 16 (by norm_num) (by norm_num)).2
  have h := rsa_block_roundtrip 257 263 (by norm_num) (by norm_num) (by decide) 3 (by decide)
    (by decide) (by rw [hb]) [0] (by decide) (by rw [hb]; decide) (by decide) [7] true
  rw [hb] at h
  exact ⟨by norm_num, by norm_num, h.1, h.2.1⟩

/-- C23: for `iters = 0` or `iters = 1` the loop `for (i = 1; i < iters; ...)` runs no
round (the comparison `1 < iters` is false, nothing is subtracted from `iters`), so no
witness is drawn and `is_prime(n, iters)` returns true for every odd `n ≥ 5`, whatever the
draws; in particular `is_prime(9, 1)` and `is_prime(561, 0)` are true. -/
theorem is_prime_zero_rounds (n : Nat) (hn : 5 ≤ n) (hodd : n % 2 = 1) (fuel : Nat)
    (hfuel : n ≤ fuel) (iters : Nat) (hit : iters ≤ 1) (draws : Nat → Int) :
    is_prime fuel draws (n : Int) iters = some true ∧
      (∀ r n_minus_one s_minus_one : Int,
        witness_rounds draws (n : Int) r n_minus_one s_minus_one iters 1 = true) ∧
      is_prime fuel draws 9 1 = some true ∧ is_prime fuel draws 561 0 = some true := by
  have hzero : ∀ (m r n_minus_one s_minus_one : Int) (it : Nat), it ≤ 1 →
      witness_rounds draws m r n_minus_one s_minus_one it 1 = true := by
    intro m r n_minus_one s_minus_one it h
    rw [witness_rounds, dif_neg (by omega)]
  refine ⟨?_, fun r a b => hzero _ r a b iters hit, ?_, ?_⟩
  · unfold is_prime
    rw [if_neg (by omega), if_neg (by omega)]
    obtain ⟨k', r', hloop, _, _⟩ := halving_loop_spec ((n : Int) - 1) (by omega) fuel 0
      ((n : Int) - 1) (by simp) (by omega)
    rw [Nat.cast_zero, pow_zero] at hloop
    rw [hloop]
    simp only []
    rw [hzero _ _ _ _ iters hit]
  · rw [is_prime_nine fuel (by omega), hzero _ _ _ _ 1 (le_refl 1)]
  · rw [is_prime_561 fuel (by omega), hzero _ _ _ _ 0 (by decide)]

theorem is_prime_zero_rounds_witness :
    is_prime 15 (fun _ => 0) ((15 : Nat) : Int) 1 = some true :=
  (is_prime_zero_rounds 15 (by decide) (by decide) 15 (le_refl 15) 1 (le_refl 1)
    (fun _ => 0)).1

/-- C24: for every modulus `n > 1`, exponent `e ≥ 0` and candidate signature `s ≥ 0`,
`rsa_verify(m, s, e, n)` is false whenever `m ≥ n`; so a message `m ≥ n` signed as
`rsa_sign(m, d, n)` never verifies. -/
theorem rsa_verify_large_message (m s e n : Int) (hn : 1 < n) (he : 0 ≤ e) (hs : 0 ≤ s)
    (hm : n ≤ m) :
    rsa_verify m s e n = false ∧ ∀ d : Int, rsa_verify m (rsa_sign m d n) e n = false := by
  have key : ∀ x : Int, rsa_verify m x e n = false := by
    intro x
    have h := (pow_mod_range x e n he hn).2
    unfold rsa_verify
    rw [if_neg (by omega)]
  exact ⟨key s, fun d => key _⟩

theorem rsa_verify_large_message_witness :
    (1 : Int) < 3233 ∧ (3233 : Int) ≤ 5000 ∧
      rsa_verify 5000 (rsa_sign 5000 2753 3233) 17 3233 = false :=
  ⟨by decide, by decide,
    (rsa_verify_large_message 5000 0 17 3233 (by decide) (by decide) (by decide)
      (by decide)).2 2753⟩

/-- C25: in `rsa_make_pub`, for every `nbits ≥ 4` (the random sources delivering values in
their ranges) and all values `p`, `q` returned by the two `make_prime` calls of a cycle,
`n = p * q` is at least `2 ^ nbits`, its bit length is `nbits + 1` or `nbits + 2`, and the
loop returns `(p, q, n)` in that very cycle: the retry branch is never taken. -/
theorem rsa_make_pub_no_retry (fuel : Nat) (D : PubDraws) (nbits iters : Nat)
    (h4 : 4 ≤ nbits) (h64 : nbits < 2 ^ 64)
    (hp_rng : ∀ c k, 0 ≤ D.p_cand c k ∧ D.p_cand c k < 2 ^ rsa_pbits nbits (D.split c))
    (hq_rng : ∀ c k, 0 ≤ D.q_cand c k ∧
      D.q_cand c k < 2 ^ rsa_qbits nbits (rsa_pbits nbits (D.split c)))
    (c : Nat) (p q : Int)
    (hmp : make_prime fuel (D.p_cand c) (D.p_wit c) (rsa_pbits nbits (D.split c)) iters
      = some p)
    (hmq : make_prime fuel (D.q_cand c) (D.q_wit c)
      (rsa_qbits nbits (rsa_pbits nbits (D.split c))) iters = some q) :
    2 ^ nbits ≤ p * q ∧
      (mpz_sizeinbase (p * q) = nbits + 1 ∨ mpz_sizeinbase (p * q) = nbits + 2) ∧
      ∀ f, rsa_make_pub_keys fuel D nbits iters (f + 1) c = some (p, q, p * q) := by
  obtain ⟨hmax, hsum⟩ := rsa_split_sum nbits (D.split c) h4 h64
  obtain ⟨_, jp, hpc⟩ := make_prime_some _ _ _ _ _ _ hmp
  obtain ⟨_, jq, hqc⟩ := make_prime_some _ _ _ _ _ _ hmq
  obtain ⟨hp1, hp2, _⟩ := make_prime_candidate_range _ _ (hp_rng c jp).1 (hp_rng c jp).2
  obtain ⟨hq1, hq2, _⟩ := make_prime_candidate_range _ _ (hq_rng c jq).1 (hq_rng c jq).2
  rw [← hpc] at hp1 hp2
  rw [← hqc] at hq1 hq2
  have hprod := product_bit_length _ _ p q hp1 hp2 hq1 hq2
  rw [hsum] at hprod
  refine ⟨hprod.1, hprod.2, ?_⟩
  intro f
  rw [rsa_make_pub_keys, if_neg hmax, hmp, hmq]
  simp only []
  rw [if_pos]
  rcases hprod.2 with h | h <;> omega

theorem rsa_make_pub_no_retry_witness :
    (2 : Int) ^ 4 ≤ 3 * 11 ∧
      (mpz_sizeinbase (3 * 11) = 4 + 1 ∨ mpz_sizeinbase (3 * 11) = 4 + 2) ∧
      ∀ f, rsa_make_pub_keys 10 sample_draws 4 3 (f + 1) 0 = some (3, 11, 3 * 11) := by
  have hp : make_prime 10 (fun _ => 1) (fun _ _ => 0) 1 3 = some 3 := by
    simp [make_prime, make_prime_loop, make_prime_candidate, is_prime]
  have hq : make_prime 10 (fun _ => 3) (fun _ _ => 0) 3 3 = some 11 := by
    simp [make_prime, make_prime_loop, make_prime_candidate, is_prime, halving_loop,
      witness_rounds, witness_round, squaring_loop, pow_mod, pow_mod_loop]
  have hb1 : rsa_pbits 4 0 = 1 := by decide
  have hb2 : rsa_qbits 4 1 = 3 := by decide
  exact rsa_make_pub_no_retry 10 sample_draws 4 3 (by decide) (by norm_num)
    (fun _ _ => ⟨show (0 : Int) ≤ 1 by decide, show (1 : Int) < 2 ^ rsa_pbits 4 0 by decide⟩)
    (fun _ _ => ⟨show (0 : Int) ≤ 3 by decide,
      show (3 : Int) < 2 ^ rsa_qbits 4 (rsa_pbits 4 0) by decide⟩)
    0 3 11 (by simp only [sample_draws]; rw [hb1]; exact hp)
    (by simp only [sample_draws]; rw [hb1, hb2]; exact hq)

end Rsa
